import Mathlib

/-!
Verification of the fusync DAG scheduling engine (src/sequenceBuilderV5.ts).

The TypeScript source is shallowly embedded as executable Lean functions:

* `Task` mirrors the `Task` interface.  A task's `action` is an arbitrary,
  possibly side-effecting JavaScript function, so each invocation may behave
  differently; the embedding models it as a function of the attempt index
  (number of prior invocations in the retry loop) and the positional argument
  list, returning `Except String α` (`.error msg` models a thrown exception).
* Real time (`Date.now()`, `delay`) is modelled by an abstract clock: a `Nat`
  threaded through execution, advanced by a per-attempt duration oracle `dur`
  and by `retryDelay` sleeps.
* `executeTaskWithRetries` mirrors the retry loop of the source, recording
  every `task.metrics` write, every sleep, every invocation and the final
  value of the `attempts` counter.
* `Graph`/`addTask` mirror the `Graph` class: a `Map` keyed by id, iterated in
  insertion order, is represented by a list of nodes with unique ids.
* `topologicalSortWithPriority` mirrors the Kahn loop of the source, with the
  in-place stable `Array.prototype.sort` by descending priority represented
  by a stable insertion sort (stable sorts over a total preorder produce a
  unique result, so any correct stable sort is a faithful model).
* `executeTasksWithConcurrencyLimit` mirrors the level-barrier driver.  The
  source launches the nodes of one level concurrently under a semaphore and
  awaits `Promise.all` before the next level; nodes of the same level never
  read each other's fields, so the per-level execution is modelled
  sequentially in launch order, which preserves every cross-level (and hence
  every dependency-relevant) ordering fact.  An abort rejection is caught and
  logged by `Sequence.build` in the source, so the model records it in the
  `aborted` field of the result and the run still resolves.
* The `Semaphore` class is modelled as a labelled transition system
  (`SemStep`); JavaScript executes `acquire`/`release` bodies atomically on
  the event loop, so each is one transition.
-/

namespace Fusync

/-- The `onError` field: `"continue" | "abort"` in the source
(`continue` is a Lean keyword, hence `cont`). -/
inductive OnError
  | cont
  | abort
deriving DecidableEq, Repr

/-- The `status` field written by the retry loop: `"success" | "failed"`. -/
inductive TaskStatus
  | success
  | failed
deriving DecidableEq, Repr

/-- `ExecutionMetrics` from the source: `{ startTime, endTime, duration }`. -/
structure Metrics where
  startTime : Nat
  endTime : Nat
  duration : Nat
deriving DecidableEq, Repr

/-- The `Task` interface of the source.  `action` receives the attempt index
(how many invocations the retry loop has already made for this task) and the
positional argument list (one `Option α` per declared dependency; `none`
models `null`/`undefined`), and returns the value or a thrown error message.
Optional fields are `Option`s exactly as in TypeScript. -/
structure Task (α : Type) where
  id : String
  action : Nat → List (Option α) → Except String α
  dependencies : List String := []
  retryCount : Option Nat := none
  retryDelay : Option Nat := none
  onError : Option OnError := none
  priority : Option Int := none

/-- One observable event of the retry loop: an invocation of `action`
starting, or finishing (successfully or by throwing) at a clock value. -/
inductive REvent
  | attemptStart (attempt : Nat) (clock : Nat)
  | attemptEnd (attempt : Nat) (clock : Nat) (ok : Bool)
deriving DecidableEq, Repr

/-- Everything observable about one `executeTaskWithRetries` call:
the returned/thrown value, the number of `action` invocations, the list of
`delay(retryDelay)` sleeps performed, every write to `task.metrics` in order,
the final `task.status` write, the final value of the loop's `attempts`
counter, the clock when the call finished and the start/end event trace. -/
structure RetryResult (α : Type) where
  value : Except String α
  invocations : Nat
  sleeps : List Nat
  metricsWrites : List Metrics
  status : Option TaskStatus
  attempts : Nat
  endClock : Nat
  events : List REvent
deriving Repr

/-- The retry loop of `executeTaskWithRetries` (source lines 220-276).
`remaining` is `maxAttempts - attempts` (the loop guard `attempts <=
maxAttempts` holds iff `remaining` would be nonnegative), `i` is the attempt
index, `clock` the current time.  Each attempt reads `startTime = Date.now()`,
invokes the action (which advances the clock by `dur i`), and on success
writes `task.metrics` once and `task.status = "success"`; on a throw it
increments `attempts` and either rethrows (attempts exhausted, writing only
`task.status = "failed"` — the source writes no metrics on this path) or
sleeps `retryDelay` and loops. -/
def retryLoop {α : Type} (act : Nat → Except String α) (dur : Nat → Nat)
    (retryDelay : Nat) : Nat → Nat → Nat → RetryResult α
  | 0, i, clock =>
    match act i with
    | .ok v =>
        { value := .ok v
          invocations := 1
          sleeps := []
          metricsWrites := [⟨clock, clock + dur i, dur i⟩]
          status := some .success
          attempts := i
          endClock := clock + dur i
          events := [.attemptStart i clock, .attemptEnd i (clock + dur i) true] }
    | .error e =>
        { value := .error e
          invocations := 1
          sleeps := []
          metricsWrites := []
          status := some .failed
          attempts := i + 1
          endClock := clock + dur i
          events := [.attemptStart i clock, .attemptEnd i (clock + dur i) false] }
  | r + 1, i, clock =>
    match act i with
    | .ok v =>
        { value := .ok v
          invocations := 1
          sleeps := []
          metricsWrites := [⟨clock, clock + dur i, dur i⟩]
          status := some .success
          attempts := i
          endClock := clock + dur i
          events := [.attemptStart i clock, .attemptEnd i (clock + dur i) true] }
    | .error _ =>
        let rest := retryLoop act dur retryDelay r (i + 1) (clock + dur i + retryDelay)
        { value := rest.value
          invocations := rest.invocations + 1
          sleeps := retryDelay :: rest.sleeps
          metricsWrites := rest.metricsWrites
          status := rest.status
          attempts := rest.attempts
          endClock := rest.endClock
          events := .attemptStart i clock :: .attemptEnd i (clock + dur i) false :: rest.events }

/-- `executeTaskWithRetries` (source lines 214-278): run the retry loop with
`maxAttempts = task.retryCount ?? 0` and `retryDelay = task.retryDelay ?? 0`,
starting at attempt 0. -/
def executeTaskWithRetries {α : Type} (t : Task α) (args : List (Option α))
    (dur : Nat → Nat) (clock : Nat) : RetryResult α :=
  retryLoop (fun i => t.action i args) dur (t.retryDelay.getD 0)
    (t.retryCount.getD 0) 0 clock

/-- Total time consumed by `t` consecutive failed attempts starting at
attempt index `i`: each failed attempt runs for `dur j` and is followed by a
`d`-millisecond retry sleep. -/
def retryElapsed (dur : Nat → Nat) (d : Nat) (i : Nat) : Nat → Nat
  | 0 => 0
  | t + 1 => dur i + d + retryElapsed dur d (i + 1) t

/-- `GraphNode` from the source: id, back-reference to the task, resolved
parent references (`dependencies`), reverse references (`dependents`) and the
in-degree counter.  The source stores object references; since the `Map` is
keyed by id and nodes are unique per id, references are represented by ids. -/
structure GraphNode (α : Type) where
  id : String
  task : Task α
  dependencies : List String
  dependents : List String
  inDegree : Int

/-- The `Graph` class: `nodes: Map<string, GraphNode>`.  A JavaScript `Map`
iterates in insertion order, so it is modelled as the list of nodes in
insertion order, with unique ids. -/
abbrev Graph (α : Type) := List (GraphNode α)

/-- A fresh node, as built by the `GraphNode` constructor. -/
def mkNode {α : Type} (t : Task α) : GraphNode α :=
  { id := t.id, task := t, dependencies := [], dependents := [], inDegree := 0 }

/-- `this.nodes.get(id)`. -/
def findNode {α : Type} (g : Graph α) (x : String) : Option (GraphNode α) :=
  g.find? (fun n => n.id == x)

/-- Whether an id names a node of the graph. -/
def isNode {α : Type} (g : Graph α) (x : String) : Bool :=
  (findNode g x).isSome

/-- The ids of the graph's nodes, in insertion order. -/
def nodeIds {α : Type} (g : Graph α) : List String :=
  g.map (·.id)

/-- The resolved dependency ids of a node (empty for an unknown id). -/
def depsOf {α : Type} (g : Graph α) (x : String) : List String :=
  ((findNode g x).map (·.dependencies)).getD []

/-- The dependent (child) ids of a node (empty for an unknown id). -/
def dependentsOf {α : Type} (g : Graph α) (x : String) : List String :=
  ((findNode g x).map (·.dependents)).getD []

/-- The in-degree counter of a node (0 for an unknown id). -/
def inDegOf {α : Type} (g : Graph α) (x : String) : Int :=
  ((findNode g x).map (·.inDegree)).getD 0

/-- `node.task.priority ?? 0`, as used by the sort comparator. -/
def prioOf {α : Type} (g : Graph α) (x : String) : Int :=
  ((findNode g x).bind (fun n => n.task.priority)).getD 0

/-- `node.task.onError`. -/
def onErrorOf {α : Type} (g : Graph α) (x : String) : Option OnError :=
  (findNode g x).bind (fun n => n.task.onError)

/-- The task stored on a node (a vacuous placeholder for an unknown id). -/
def taskOf {α : Type} (g : Graph α) (x : String) : Task α :=
  ((findNode g x).map (·.task)).getD { id := x, action := fun _ _ => .error "" }

/-- The build-time errors thrown by `Graph.addTask` (line 140) and
`topologicalSortWithPriority` (line 179). -/
inductive BuildErr
  | dependencyNotFound (dep : String) (taskId : String)
  | cycleDetected
deriving DecidableEq, Repr

/-- One dependency link of `addTask`'s `forEach` body (lines 142-144):
`node.dependencies.push(depNode)`, `depNode.dependents.push(node)`,
`node.inDegree++`. -/
def pushDepEdge {α : Type} (g : Graph α) (childId depId : String) : Graph α :=
  (g.map (fun n =>
    if n.id == childId then
      { n with dependencies := n.dependencies ++ [depId], inDegree := n.inDegree + 1 }
    else n)).map (fun n =>
      if n.id == depId then { n with dependents := n.dependents ++ [childId] } else n)

/-- `addTask`'s dependency loop (lines 136-146): for each declared dependency
in order, look it up; if absent, throw `Dependency ... not found` (the
`forEach` throw aborts the whole `addTask` call); otherwise link the edge. -/
def linkDeps {α : Type} (childId : String) : List String → Graph α → Except BuildErr (Graph α)
  | [], acc => .ok acc
  | d :: ds, acc =>
      if (findNode acc d).isSome then
        linkDeps childId ds (pushDepEdge acc childId d)
      else
        .error (.dependencyNotFound d childId)

/-- `Graph.addTask` (lines 129-147): reuse the node if the id is already
present (a duplicate id is silently merged, not rejected), otherwise insert a
fresh node; then resolve each declared dependency. -/
def addTask {α : Type} (g : Graph α) (t : Task α) : Except BuildErr (Graph α) :=
  linkDeps t.id t.dependencies (if (findNode g t.id).isSome then g else g ++ [mkNode t])

/-- Building the DAG from the task list (`Sequence.build`, line 703):
`this.tasks.forEach((task) => this.dag.addTask(task))`. -/
def buildGraph {α : Type} (ts : List (Task α)) : Except BuildErr (Graph α) :=
  ts.foldlM addTask []

/-- Well-formedness invariants of a graph produced by `buildGraph`:
unique node ids, dependency and dependent references resolve to nodes, the
in-degree counter equals the number of dependency references, and the
dependent lists mirror the dependency lists (with multiplicity). -/
structure WF {α : Type} (g : Graph α) : Prop where
  nodup : (nodeIds g).Nodup
  depsClosed : ∀ x d, d ∈ depsOf g x → d ∈ nodeIds g
  dependentsClosed : ∀ x c, c ∈ dependentsOf g x → c ∈ nodeIds g
  inDeg : ∀ x, inDegOf g x = ((depsOf g x).length : Int)
  mirror : ∀ p c, (dependentsOf g p).count c = (depsOf g c).count p

/-- A task whose action always throws: used to exercise the retry-exhaustion
path of `executeTaskWithRetries`. -/
def alwaysFailTask : Task Nat :=
  { id := "F"
    action := fun _ _ => .error "always"
    retryCount := some 1
    retryDelay := some 3 }

/-- A task that throws on its first attempt and succeeds on the second:
used to exercise the retry-then-succeed path. -/
def retryThenOkTask : Task Nat :=
  { id := "R"
    action := fun i _ => if i = 0 then .error "first" else .ok 7
    retryCount := some 2
    retryDelay := some 3 }

/-- A task whose action always throws, with two retries: used as the concrete
input for the retry-bound claim. -/
def exhaustTask : Task Nat :=
  { id := "T"
    action := fun _ _ => .error "boom"
    retryCount := some 2
    retryDelay := some 5 }

/-- Stable insertion of `x` (which comes from earlier in the unsorted list)
into a descending-priority sorted list: `x` is placed before the first
element whose priority does not exceed `x`'s. -/
def insertDesc {α : Type} (g : Graph α) (x : String) : List String → List String
  | [] => [x]
  | y :: ys => if prioOf g y ≤ prioOf g x then x :: y :: ys else y :: insertDesc g x ys

/-- The queue sort of `topologicalSortWithPriority` (line 164):
`queue.sort((a, b) => (b.task.priority ?? 0) - (a.task.priority ?? 0))`.
`Array.prototype.sort` is required to be stable, and a stable sort by a total
preorder has a unique result, so this stable insertion sort (descending
priority, ties keep list order) is a faithful model. -/
def sortDesc {α : Type} (g : Graph α) : List String → List String
  | [] => []
  | x :: xs => insertDesc g x (sortDesc g xs)

/-- The mutable state of the Kahn loop (lines 151-176): the ready queue, the
current `inDegree` counters of all nodes, and the output list. -/
structure KState where
  queue : List String
  inDeg : List (String × Int)
  out : List String

/-- Read a node's current in-degree counter. -/
def degLookup (m : List (String × Int)) (x : String) : Int :=
  ((m.find? (fun p => p.1 == x)).map (·.2)).getD 0

/-- Write a node's in-degree counter. -/
def degSet (m : List (String × Int)) (x : String) (v : Int) : List (String × Int) :=
  m.map (fun p => if p.1 == x then (p.1, v) else p)

/-- The `forEach` over `node.dependents` (lines 170-175): decrement each
dependent's in-degree and push it onto the queue exactly when the counter
becomes 0. Returns the updated counters and the list of pushed ids in push
order. -/
def processDependents (m : List (String × Int)) :
    List String → List (String × Int) × List String
  | [] => (m, [])
  | d :: ds =>
      let v := degLookup m d - 1
      let m' := degSet m d v
      let pr := processDependents m' ds
      (pr.1, (if v = 0 then [d] else []) ++ pr.2)

/-- One iteration of the Kahn `while` loop (lines 162-176): sort the queue in
place by descending priority (stable), shift the head, append it to the
output, and process its dependents. -/
def kahnStep {α : Type} (g : Graph α) (s : KState) : KState :=
  match sortDesc g s.queue with
  | [] => s
  | e :: rest =>
      let pr := processDependents s.inDeg (dependentsOf g e)
      { queue := rest ++ pr.2, inDeg := pr.1, out := s.out ++ [e] }

/-- The Kahn `while` loop.  Fuel is an artifact of the embedding: each node
is enqueued at most once, so `g.length` iterations always suffice (proved in
`kahnLoop_queue_empty`); the source loop simply runs until the queue is
empty. -/
def kahnLoop {α : Type} (g : Graph α) : Nat → KState → KState
  | 0, s => s
  | fuel + 1, s => if s.queue.isEmpty then s else kahnLoop g fuel (kahnStep g s)

/-- The initial Kahn state (lines 152-160): all nodes of in-degree 0, in map
insertion order. -/
def kahnInit {α : Type} (g : Graph α) : KState :=
  { queue := (g.filter (fun n => n.inDegree == 0)).map (·.id)
    inDeg := g.map (fun n => (n.id, n.inDegree))
    out := [] }

/-- `topologicalSortWithPriority` (lines 151-184): run the Kahn loop; if the
output misses nodes, throw `Graph has at least one cycle`. -/
def topologicalSortWithPriority {α : Type} (g : Graph α) : Except BuildErr (List String) :=
  let s := kahnLoop g g.length (kahnInit g)
  if s.out.length = g.length then .ok s.out else .error .cycleDetected

/-- Level lookup in the assigned-levels association list
(`nodeLevels.get(node)`). -/
def levelLookup (levels : List (String × Nat)) (x : String) : Nat :=
  ((levels.find? (fun p => p.1 == x)).map (·.2)).getD 0

/-- The level assignment of the driver (lines 289-296): walking the sorted
nodes in order, a node with no dependencies gets level 0, otherwise one more
than the maximum of its dependencies' levels. -/
def assignLevels {α : Type} (g : Graph α) : List String → List (String × Nat) → List (String × Nat)
  | [], acc => acc
  | n :: ns, acc =>
      let ds := depsOf g n
      let lvl := if ds.isEmpty then 0 else (ds.map (levelLookup acc)).foldl max 0 + 1
      assignLevels g ns (acc ++ [(n, lvl)])

/-- One completed launch of the driver: the node id, the positional argument
list passed to its action (`node.dependencies.map(dep => dep.task.artifact)`,
line 310), and the full retry-loop result. -/
structure NodeRun (α : Type) where
  id : String
  args : List (Option α)
  res : RetryResult α

/-- The `task.artifact` slots: an association list from node ids to artifact
values; a missing entry models `undefined`, a `none` value models the `null`
written on a continue-failure, and both read back as an absent artifact. -/
abbrev Artifacts (α : Type) := List (String × Option α)

/-- Read a node's artifact slot (absent for unset slots and `null`). -/
def artLookup {α : Type} (arts : Artifacts α) (x : String) : Option α :=
  ((arts.find? (fun p => p.1 == x)).map (·.2)).getD none

/-- The observable outcome of the launches of one level. -/
structure LevelOut (α : Type) where
  runs : List (NodeRun α)
  arts : Artifacts α
  clock : Nat
  aborted : Option String

/-- The launches of one level (lines 304-337).  The source fires all nodes of
the level under `Promise.all`; nodes of one level are mutually independent
and never read each other's state, so the launches are modelled sequentially
in launch order.  Each launch gathers the parent artifacts, runs the retry
loop, and on success stores the artifact, on failure either records the abort
(`onError == "abort"` throws, which `Promise.all` turns into a rejection of
the level; in-flight siblings still complete, hence the loop continues) or
stores a `null` artifact. -/
def runLevel {α : Type} (g : Graph α) (durOf : String → Nat → Nat) :
    List String → Artifacts α → Nat → Option String → LevelOut α
  | [], arts, clock, ab => ⟨[], arts, clock, ab⟩
  | n :: ns, arts, clock, ab =>
      let args := (depsOf g n).map (artLookup arts)
      let r := executeTaskWithRetries (taskOf g n) args (durOf n) clock
      let arts' : Artifacts α :=
        match r.value with
        | .ok v => (n, some v) :: arts
        | .error _ =>
            match onErrorOf g n with
            | some .abort => arts
            | _ => (n, none) :: arts
      let ab' : Option String :=
        match r.value with
        | .ok _ => ab
        | .error _ =>
            match onErrorOf g n with
            | some .abort => ab.orElse (fun _ => some n)
            | _ => ab
      let rest := runLevel g durOf ns arts' r.endClock ab'
      ⟨⟨n, args, r⟩ :: rest.runs, rest.arts, rest.clock, rest.aborted⟩

/-- The level loop of the driver (lines 300-338): process levels `l`,
`l + 1`, … in order; an abort rejection at a level stops the loop before the
next level.  Fuel is `maxLevel + 1` at the top call, which covers every
assigned level. -/
def execLevels {α : Type} (g : Graph α) (durOf : String → Nat → Nat)
    (levels : List (String × Nat)) (sorted : List String) :
    Nat → Nat → Artifacts α → Nat → LevelOut α
  | _, 0, arts, clock => ⟨[], arts, clock, none⟩
  | l, fuel + 1, arts, clock =>
      let ns := sorted.filter (fun n => levelLookup levels n == l)
      let lo := runLevel g durOf ns arts clock none
      match lo.aborted with
      | some a => ⟨lo.runs, lo.arts, lo.clock, some a⟩
      | none =>
          let rest := execLevels g durOf levels sorted (l + 1) fuel lo.arts lo.clock
          ⟨lo.runs ++ rest.runs, rest.arts, rest.clock, rest.aborted⟩

/-- The observable outcome of one `executeTasksWithConcurrencyLimit` call:
every launch in launch order, the final artifact slots, the id of the task
whose abort throw rejected the run (if any), the level assignment, the
capacity handed to the `Semaphore` constructor (line 286), and the final
clock. -/
structure DriveResult (α : Type) where
  runs : List (NodeRun α)
  artifacts : Artifacts α
  aborted : Option String
  levels : List (String × Nat)
  semCapacity : Nat
  endClock : Nat

/-- `executeTasksWithConcurrencyLimit` (lines 280-339): assign levels, then
execute level by level with a barrier between levels. -/
def executeTasksWithConcurrencyLimit {α : Type} (g : Graph α) (sorted : List String)
    (maxConcurrency : Nat) (durOf : String → Nat → Nat) (clock : Nat) : DriveResult α :=
  let levels := assignLevels g sorted []
  let maxLevel := (levels.map (·.2)).foldl max 0
  let lo := execLevels g durOf levels sorted 0 (maxLevel + 1) [] clock
  ⟨lo.runs, lo.arts, lo.aborted, levels, maxConcurrency, lo.clock⟩

/-- `SequenceConfig` from the source. -/
structure SequenceConfig where
  verbose : Option Bool := none
  maxConcurrency : Option Nat := none

/-- `Sequence.build` (lines 701-742): build the DAG (`addTask` may throw),
topologically sort (may throw `cycle`), then execute with
`this.config.maxConcurrency ?? 2`.  Any error thrown during execution —
including the abort rejection — is caught by the `try/catch` inside
`build` and only logged, so the returned promise still resolves; the model
therefore returns `.ok` with the abort recorded in the result, and only
build-time errors reject. -/
def runSequence {α : Type} (cfg : SequenceConfig) (tasks : List (Task α))
    (durOf : String → Nat → Nat) (clock : Nat) : Except BuildErr (DriveResult α) := do
  let g ← buildGraph tasks
  let sorted ← topologicalSortWithPriority g
  .ok (executeTasksWithConcurrencyLimit g sorted (cfg.maxConcurrency.getD 2) durOf clock)

/-- The flattened event stream of a run: every retry-loop event, tagged with
the id of the node it belongs to, in emission order. -/
def runTrace {α : Type} (r : DriveResult α) : List (String × REvent) :=
  (r.runs.map (fun nr => nr.res.events.map (fun e => (nr.id, e)))).flatten

/-- Every event of node `p` occurs strictly before every event of node `c`
in the event stream `tr`. -/
def eventsBefore (tr : List (String × REvent)) (p c : String) : Prop :=
  ∀ i j, (hi : i < tr.length) → (hj : j < tr.length) →
    (tr.get ⟨i, hi⟩).1 = p → (tr.get ⟨j, hj⟩).1 = c → i < j

/-- The artifact value a completed launch list determines for a node:
the returned value of its successful run, absent if it never ran or failed. -/
def runOutcome {α : Type} (runs : List (NodeRun α)) (x : String) : Option α :=
  match runs.find? (fun nr => nr.id == x) with
  | some nr =>
      match nr.res.value with
      | .ok v => some v
      | .error _ => none
  | none => none

/-- The state of the `Semaphore` class (lines 187-211): the `counter`, the
queue of pending `acquire` resolvers (`tasks`, in arrival order) and — for
stating the concurrency bound — the set of callers that have been granted a
permit and have not yet released it.  Waiters and holders are identified by
an arrival stamp `nextId`. -/
structure SemState where
  counter : Int
  waiters : List Nat
  holders : List Nat
  nextId : Nat

/-- `new Semaphore(k)`. -/
def semInit (k : Nat) : SemState :=
  ⟨(k : Int), [], [], 0⟩

/-- The atomic transitions of the semaphore.  JavaScript runs each
`acquire`/`release` body synchronously on the event loop, so each is one
transition: `acquire` either takes a permit immediately (`counter > 0`) or
appends itself to the waiter queue; `release` increments the counter and, if
a waiter exists, immediately decrements it again and resumes the queue head
(`tasks.shift()`), handing the permit over without it ever being observable
as free. -/
inductive SemStep : SemState → SemState → Prop
  | acquireFast (s : SemState) (h : 0 < s.counter) :
      SemStep s ⟨s.counter - 1, s.waiters, s.holders ++ [s.nextId], s.nextId + 1⟩
  | acquireWait (s : SemState) (h : ¬ 0 < s.counter) :
      SemStep s ⟨s.counter, s.waiters ++ [s.nextId], s.holders, s.nextId + 1⟩
  | releaseNoWaiter (s : SemState) (x : Nat) (hx : x ∈ s.holders) (hw : s.waiters = []) :
      SemStep s ⟨s.counter + 1, [], s.holders.erase x, s.nextId⟩
  | releaseHandoff (s : SemState) (x w : Nat) (ws : List Nat) (hx : x ∈ s.holders)
      (hw : s.waiters = w :: ws) :
      SemStep s ⟨s.counter, ws, (s.holders.erase x) ++ [w], s.nextId⟩

/-- The reachable states of a semaphore of capacity `k`. -/
def SemReachable (k : Nat) (s : SemState) : Prop :=
  Relation.ReflTransGen SemStep (semInit k) s

/-- A unit duration oracle for concrete runs. -/
def unitDur : String → Nat → Nat :=
  fun _ _ => 1

/-- Concrete linear chain from spec scenario 1: `A` produces `"a"`. -/
def chainA : Task String :=
  { id := "A", action := fun _ _ => .ok "a" }

/-- Chain task `B`: parent `A`, appends `"b"` to its parent artifact. -/
def chainB : Task String :=
  { id := "B"
    action := fun _ args =>
      match args with
      | [some x] => .ok (x ++ "b")
      | _ => .error "missing parent artifact"
    dependencies := ["A"] }

/-- Chain task `C`: parent `B`, appends `"c"` to its parent artifact. -/
def chainC : Task String :=
  { id := "C"
    action := fun _ args =>
      match args with
      | [some x] => .ok (x ++ "c")
      | _ => .error "missing parent artifact"
    dependencies := ["B"] }

/-- Independent root of priority 1 (spec scenario 6). -/
def rootA : Task Nat :=
  { id := "A", action := fun _ _ => .ok 1, priority := some 1 }

/-- Independent root of priority 5 (spec scenario 6). -/
def rootB : Task Nat :=
  { id := "B", action := fun _ _ => .ok 2, priority := some 5 }

/-- Independent root of priority 3 (spec scenario 6). -/
def rootC : Task Nat :=
  { id := "C", action := fun _ _ => .ok 3, priority := some 3 }

/-- A root task that always fails with `onError = "abort"`. -/
def abortRoot : Task Nat :=
  { id := "A", action := fun _ _ => .error "fail", onError := some .abort }

/-- A child of the aborting root. -/
def abortChild : Task Nat :=
  { id := "B", action := fun _ _ => .ok 2, dependencies := ["A"] }

/-- A root task that always fails with the default `onError` (continue). -/
def contFailRoot : Task Nat :=
  { id := "A", action := fun _ _ => .error "fail" }

/-- A child of the continue-failing root, returning the number of absent
argument slots it received. -/
def contChild : Task Nat :=
  { id := "B"
    action := fun _ args => .ok (args.countP (fun a => a.isNone))
    dependencies := ["A"] }

/-- A plain independent task with id `A`. -/
def plainA : Task Nat :=
  { id := "A", action := fun _ _ => .ok 1 }

/-- A second task with the duplicate id `A` (different action). -/
def plainA2 : Task Nat :=
  { id := "A", action := fun _ _ => .ok 2 }

/-- A task with id `B` that depends on `A`: listed before `A`, it exercises
the forward-reference behavior of `addTask`. -/
def forwardB : Task Nat :=
  { id := "B", action := fun _ _ => .ok 2, dependencies := ["A"] }

/-- The graph `buildGraph [rootA, rootB, rootC]` produces. -/
def rootsGraph : Graph Nat :=
  [{ id := "A", task := rootA, dependencies := [], dependents := [], inDegree := 0 },
   { id := "B", task := rootB, dependencies := [], dependents := [], inDegree := 0 },
   { id := "C", task := rootC, dependencies := [], dependents := [], inDegree := 0 }]

/-- The graph `buildGraph [chainA, chainB, chainC]` produces. -/
def chainGraph : Graph String :=
  [{ id := "A", task := chainA, dependencies := [], dependents := ["B"], inDegree := 0 },
   { id := "B", task := chainB, dependencies := ["A"], dependents := ["C"], inDegree := 1 },
   { id := "C", task := chainC, dependencies := ["B"], dependents := [], inDegree := 1 }]

/-- The graph `buildGraph [abortRoot, abortChild]` produces. -/
def abortGraph : Graph Nat :=
  [{ id := "A", task := abortRoot, dependencies := [], dependents := ["B"], inDegree := 0 },
   { id := "B", task := abortChild, dependencies := ["A"], dependents := [], inDegree := 1 }]

/-- The graph `buildGraph [contFailRoot, contChild]` produces. -/
def contGraph : Graph Nat :=
  [{ id := "A", task := contFailRoot, dependencies := [], dependents := ["B"], inDegree := 0 },
   { id := "B", task := contChild, dependencies := ["A"], dependents := [], inDegree := 1 }]

theorem retryLoop_invocations_le {α : Type} (act : Nat → Except String α)
    (dur : Nat → Nat) (d : Nat) :
    ∀ remaining i clock, (retryLoop act dur d remaining i clock).invocations ≤ remaining + 1 := by
  intro remaining
  induction remaining with
  | zero =>
      intro i clock
      cases h : act i <;> simp [retryLoop, h]
  | succ r ih =>
      intro i clock
      cases h : act i with
      | ok v => simp [retryLoop, h]
      | error e =>
          simp only [retryLoop, h]
          have := ih (i + 1) (clock + dur i + d)
          omega

theorem retryLoop_attempts_le {α : Type} (act : Nat → Except String α)
    (dur : Nat → Nat) (d : Nat) :
    ∀ remaining i clock, (retryLoop act dur d remaining i clock).attempts ≤ i + remaining + 1 := by
  intro remaining
  induction remaining with
  | zero =>
      intro i clock
      cases h : act i <;> simp [retryLoop, h]
  | succ r ih =>
      intro i clock
      cases h : act i with
      | ok v => simp [retryLoop, h]; omega
      | error e =>
          simp only [retryLoop, h]
          have := ih (i + 1) (clock + dur i + d)
          omega

theorem retryLoop_pos {α : Type} (act : Nat → Except String α)
    (dur : Nat → Nat) (d : Nat) :
    ∀ remaining i clock, 1 ≤ (retryLoop act dur d remaining i clock).invocations := by
  intro remaining i clock
  cases remaining <;> cases h : act i <;> simp [retryLoop, h]

theorem retryLoop_sleeps {α : Type} (act : Nat → Except String α)
    (dur : Nat → Nat) (d : Nat) :
    ∀ remaining i clock, (retryLoop act dur d remaining i clock).sleeps =
      List.replicate ((retryLoop act dur d remaining i clock).invocations - 1) d := by
  intro remaining
  induction remaining with
  | zero =>
      intro i clock
      cases h : act i <;> simp [retryLoop, h]
  | succ r ih =>
      intro i clock
      cases h : act i with
      | ok v => simp [retryLoop, h]
      | error e =>
          simp only [retryLoop, h]
          have h1 := ih (i + 1) (clock + dur i + d)
          have h2 : 1 ≤ (retryLoop act dur d r (i + 1) (clock + dur i + d)).invocations := by
            cases hr : (retryLoop act dur d r (i + 1) (clock + dur i + d)).invocations with
            | zero =>
                exfalso
                have := retryLoop_pos act dur d r (i + 1) (clock + dur i + d)
                omega
            | succ n => omega
          rw [h1]
          have h3 : (retryLoop act dur d r (i + 1) (clock + dur i + d)).invocations + 1 - 1
              = ((retryLoop act dur d r (i + 1) (clock + dur i + d)).invocations - 1) + 1 := by
            omega
          rw [h3, List.replicate_succ]

theorem retryLoop_error {α : Type} (act : Nat → Except String α)
    (dur : Nat → Nat) (d : Nat) :
    ∀ remaining i clock m, (retryLoop act dur d remaining i clock).value = .error m →
      (retryLoop act dur d remaining i clock).invocations = remaining + 1 ∧
      (retryLoop act dur d remaining i clock).attempts = i + remaining + 1 ∧
      (retryLoop act dur d remaining i clock).status = some .failed ∧
      (retryLoop act dur d remaining i clock).metricsWrites = [] ∧
      act (i + remaining) = .error m := by
  intro remaining
  induction remaining with
  | zero =>
      intro i clock m hv
      cases h : act i with
      | ok v => simp [retryLoop, h] at hv
      | error e =>
          simp [retryLoop, h] at hv ⊢
          exact hv
  | succ r ih =>
      intro i clock m hv
      cases h : act i with
      | ok v => simp [retryLoop, h] at hv
      | error e =>
          simp only [retryLoop, h] at hv ⊢
          have := ih (i + 1) (clock + dur i + d) m hv
          refine ⟨by omega, by omega, this.2.2.1, this.2.2.2.1, ?_⟩
          have heq : i + 1 + r = i + (r + 1) := by omega
          rw [heq] at this
          exact this.2.2.2.2

theorem retryLoop_ok {α : Type} (act : Nat → Except String α)
    (dur : Nat → Nat) (d : Nat) :
    ∀ remaining i clock v, (retryLoop act dur d remaining i clock).value = .ok v →
      (retryLoop act dur d remaining i clock).status = some .success ∧
      i ≤ (retryLoop act dur d remaining i clock).attempts ∧
      act (retryLoop act dur d remaining i clock).attempts = .ok v ∧
      (retryLoop act dur d remaining i clock).metricsWrites =
        [⟨clock + retryElapsed dur d i ((retryLoop act dur d remaining i clock).attempts - i),
          clock + retryElapsed dur d i ((retryLoop act dur d remaining i clock).attempts - i) +
            dur (retryLoop act dur d remaining i clock).attempts,
          dur (retryLoop act dur d remaining i clock).attempts⟩] := by
  intro remaining
  induction remaining with
  | zero =>
      intro i clock v hv
      cases h : act i with
      | ok w =>
          simp [retryLoop, h] at hv ⊢
          subst hv
          simp [retryElapsed, h]
      | error e => simp [retryLoop, h] at hv
  | succ r ih =>
      intro i clock v hv
      cases h : act i with
      | ok w =>
          simp [retryLoop, h] at hv ⊢
          subst hv
          simp [retryElapsed, h]
      | error e =>
          simp only [retryLoop, h] at hv ⊢
          have := ih (i + 1) (clock + dur i + d) v hv
          refine ⟨this.1, by omega, this.2.2.1, ?_⟩
          rw [this.2.2.2]
          have ha : i ≤ (retryLoop act dur d r (i + 1) (clock + dur i + d)).attempts := by
            omega
          have hsub : (retryLoop act dur d r (i + 1) (clock + dur i + d)).attempts - i =
              ((retryLoop act dur d r (i + 1) (clock + dur i + d)).attempts - (i + 1)) + 1 := by
            omega
          rw [hsub]
          simp only [retryElapsed]
          simp only [List.cons.injEq, and_true, Metrics.mk.injEq]
          omega

theorem findNode_id {α : Type} {g : Graph α} {x : String} {n : GraphNode α}
    (h : findNode g x = some n) : n.id = x := by
  have := List.find?_some h
  simpa using this

theorem findNode_isSome_iff {α : Type} (g : Graph α) (x : String) :
    (findNode g x).isSome = true ↔ x ∈ nodeIds g := by
  unfold findNode nodeIds
  rw [List.find?_isSome]
  constructor
  · rintro ⟨n, hn, hp⟩
    simp only [beq_iff_eq] at hp
    exact hp ▸ List.mem_map_of_mem _ hn
  · intro hm
    rcases List.mem_map.1 hm with ⟨n, hn, hid⟩
    exact ⟨n, hn, by simp [hid]⟩

theorem findNode_map {α : Type} (g : Graph α) (f : GraphNode α → GraphNode α)
    (hid : ∀ n, (f n).id = n.id) (x : String) :
    findNode (g.map f) x = (findNode g x).map f := by
  unfold findNode
  rw [List.find?_map]
  have hp : ((fun n : GraphNode α => n.id == x) ∘ f) = fun n => n.id == x := by
    funext n
    simp [Function.comp, hid]
  rw [hp]

theorem findNode_pushDepEdge {α : Type} (g : Graph α) (c d x : String) :
    findNode (pushDepEdge g c d) x =
      (findNode g x).map (fun n =>
        let n1 := if x = c then
          { n with dependencies := n.dependencies ++ [d], inDegree := n.inDegree + 1 }
          else n
        if x = d then { n1 with dependents := n1.dependents ++ [c] } else n1) := by
  unfold pushDepEdge
  rw [findNode_map _ _ (fun n => by split <;> rfl),
    findNode_map _ _ (fun n => by split <;> rfl)]
  cases h : findNode g x with
  | none => rfl
  | some n =>
      have hid := findNode_id h
      subst hid
      simp only [Option.map_map, Option.map_some, Function.comp]
      by_cases hc : n.id = c
      · subst hc
        by_cases hd : n.id = d
        · subst hd
          simp
        · simp [hd]
      · by_cases hd : n.id = d
        · subst hd
          simp [hc]
        · simp [hc, hd]

theorem nodeIds_map_update {α : Type} (g : Graph α) (f : GraphNode α → GraphNode α)
    (hid : ∀ n, (f n).id = n.id) : nodeIds (g.map f) = nodeIds g := by
  unfold nodeIds
  rw [List.map_map]
  have hp : ((fun n : GraphNode α => n.id) ∘ f) = fun n => n.id := by
    funext n
    exact hid n
  rw [hp]

theorem nodeIds_pushDepEdge {α : Type} (g : Graph α) (c d : String) :
    nodeIds (pushDepEdge g c d) = nodeIds g := by
  unfold pushDepEdge
  rw [nodeIds_map_update _ _ (fun n => by split <;> rfl),
    nodeIds_map_update _ _ (fun n => by split <;> rfl)]

theorem depsOf_pushDepEdge {α : Type} (g : Graph α) (c d x : String) :
    depsOf (pushDepEdge g c d) x =
      if x = c ∧ x ∈ nodeIds g then depsOf g x ++ [d] else depsOf g x := by
  unfold depsOf
  rw [findNode_pushDepEdge]
  cases h : findNode g x with
  | none =>
      have hx : ¬ x ∈ nodeIds g := by
        rw [← findNode_isSome_iff]
        simp [h]
      simp [hx]
  | some n =>
      have hx : x ∈ nodeIds g := by
        rw [← findNode_isSome_iff]
        simp [h]
      have hid := findNode_id h
      subst hid
      by_cases hc : n.id = c
      · subst hc
        by_cases hd : n.id = d
        · subst hd
          simp [hx]
        · simp [hx, hd]
      · by_cases hd : n.id = d
        · subst hd
          simp [hx, hc]
        · simp [hx, hc, hd]

theorem dependentsOf_pushDepEdge {α : Type} (g : Graph α) (c d x : String) :
    dependentsOf (pushDepEdge g c d) x =
      if x = d ∧ x ∈ nodeIds g then dependentsOf g x ++ [c] else dependentsOf g x := by
  unfold dependentsOf
  rw [findNode_pushDepEdge]
  cases h : findNode g x with
  | none =>
      have hx : ¬ x ∈ nodeIds g := by
        rw [← findNode_isSome_iff]
        simp [h]
      simp [hx]
  | some n =>
      have hx : x ∈ nodeIds g := by
        rw [← findNode_isSome_iff]
        simp [h]
      have hid := findNode_id h
      subst hid
      by_cases hc : n.id = c
      · subst hc
        by_cases hd : n.id = d
        · subst hd
          simp [hx]
        · simp [hx, hd]
      · by_cases hd : n.id = d
        · subst hd
          simp [hx, hc]
        · simp [hx, hc, hd]

theorem inDegOf_pushDepEdge {α : Type} (g : Graph α) (c d x : String) :
    inDegOf (pushDepEdge g c d) x =
      if x = c ∧ x ∈ nodeIds g then inDegOf g x + 1 else inDegOf g x := by
  unfold inDegOf
  rw [findNode_pushDepEdge]
  cases h : findNode g x with
  | none =>
      have hx : ¬ x ∈ nodeIds g := by
        rw [← findNode_isSome_iff]
        simp [h]
      simp [hx]
  | some n =>
      have hx : x ∈ nodeIds g := by
        rw [← findNode_isSome_iff]
        simp [h]
      have hid := findNode_id h
      subst hid
      by_cases hc : n.id = c
      · subst hc
        by_cases hd : n.id = d
        · subst hd
          simp [hx]
        · simp [hx, hd]
      · by_cases hd : n.id = d
        · subst hd
          simp [hx, hc]
        · simp [hx, hc, hd]

theorem taskOf_pushDepEdge {α : Type} (g : Graph α) (c d x : String) :
    taskOf (pushDepEdge g c d) x = taskOf g x := by
  unfold taskOf
  rw [findNode_pushDepEdge]
  cases h : findNode g x with
  | none => rfl
  | some n =>
      have hid := findNode_id h
      subst hid
      by_cases hc : n.id = c
      · subst hc
        by_cases hd : n.id = d
        · subst hd
          simp
        · simp [hd]
      · by_cases hd : n.id = d
        · subst hd
          simp [hc]
        · simp [hc, hd]

theorem prioOf_pushDepEdge {α : Type} (g : Graph α) (c d x : String) :
    prioOf (pushDepEdge g c d) x = prioOf g x := by
  unfold prioOf
  rw [findNode_pushDepEdge]
  cases h : findNode g x with
  | none => rfl
  | some n =>
      have hid := findNode_id h
      subst hid
      by_cases hc : n.id = c
      · subst hc
        by_cases hd : n.id = d
        · subst hd
          simp
        · simp [hd]
      · by_cases hd : n.id = d
        · subst hd
          simp [hc]
        · simp [hc, hd]

theorem onErrorOf_pushDepEdge {α : Type} (g : Graph α) (c d x : String) :
    onErrorOf (pushDepEdge g c d) x = onErrorOf g x := by
  unfold onErrorOf
  rw [findNode_pushDepEdge]
  cases h : findNode g x with
  | none => rfl
  | some n =>
      have hid := findNode_id h
      subst hid
      by_cases hc : n.id = c
      · subst hc
        by_cases hd : n.id = d
        · subst hd
          simp
        · simp [hd]
      · by_cases hd : n.id = d
        · subst hd
          simp [hc]
        · simp [hc, hd]

theorem findNode_append_single {α : Type} (g : Graph α) (n0 : GraphNode α) (x : String) :
    findNode (g ++ [n0]) x = (findNode g x).or (if n0.id = x then some n0 else none) := by
  unfold findNode
  rw [List.find?_append]
  congr 1
  by_cases h : n0.id = x
  · simp [List.find?, h]
  · have hb : (n0.id == x) = false := by simp [h]
    simp [List.find?, hb, h]

theorem nodeIds_append_single {α : Type} (g : Graph α) (n0 : GraphNode α) :
    nodeIds (g ++ [n0]) = nodeIds g ++ [n0.id] := by
  simp [nodeIds]

theorem depsOf_append_mkNode {α : Type} (g : Graph α) (t : Task α) (x : String) :
    depsOf (g ++ [mkNode t]) x = depsOf g x := by
  unfold depsOf
  rw [findNode_append_single]
  cases h : findNode g x with
  | some n => rfl
  | none => by_cases ht : t.id = x <;> simp [ht, mkNode]

theorem dependentsOf_append_mkNode {α : Type} (g : Graph α) (t : Task α) (x : String) :
    dependentsOf (g ++ [mkNode t]) x = dependentsOf g x := by
  unfold dependentsOf
  rw [findNode_append_single]
  cases h : findNode g x with
  | some n => rfl
  | none => by_cases ht : t.id = x <;> simp [ht, mkNode]

theorem inDegOf_append_mkNode {α : Type} (g : Graph α) (t : Task α) (x : String) :
    inDegOf (g ++ [mkNode t]) x = inDegOf g x := by
  unfold inDegOf
  rw [findNode_append_single]
  cases h : findNode g x with
  | some n => rfl
  | none => by_cases ht : t.id = x <;> simp [ht, mkNode]

theorem taskOf_append_mkNode {α : Type} (g : Graph α) (t : Task α) (x : String)
    (hx : x ≠ t.id) : taskOf (g ++ [mkNode t]) x = taskOf g x := by
  unfold taskOf
  rw [findNode_append_single]
  cases h : findNode g x with
  | some n => rfl
  | none =>
      have ht : ¬ t.id = x := fun hh => hx hh.symm
      simp [mkNode, ht]

theorem prioOf_append_mkNode_self {α : Type} (g : Graph α) (t : Task α)
    (hfresh : ¬ t.id ∈ nodeIds g) :
    prioOf (g ++ [mkNode t]) t.id = t.priority.getD 0 := by
  unfold prioOf
  rw [findNode_append_single]
  have h : findNode g t.id = none := by
    cases h : findNode g t.id with
    | none => rfl
    | some n =>
        exfalso
        apply hfresh
        rw [← findNode_isSome_iff]
        simp [h]
  simp [h, mkNode]

theorem prioOf_append_mkNode_ne {α : Type} (g : Graph α) (t : Task α) (x : String)
    (hx : x ≠ t.id) : prioOf (g ++ [mkNode t]) x = prioOf g x := by
  unfold prioOf
  rw [findNode_append_single]
  cases h : findNode g x with
  | some n => rfl
  | none =>
      have ht : ¬ t.id = x := fun hh => hx hh.symm
      simp [mkNode, ht]

theorem pushDepEdge_wf {α : Type} {g : Graph α} {c d : String} (hwf : WF g)
    (hc : c ∈ nodeIds g) (hd : d ∈ nodeIds g) : WF (pushDepEdge g c d) := by
  constructor
  · rw [nodeIds_pushDepEdge]
    exact hwf.nodup
  · intro x e he
    rw [depsOf_pushDepEdge] at he
    rw [nodeIds_pushDepEdge]
    by_cases hx : x = c ∧ x ∈ nodeIds g
    · rw [if_pos hx] at he
      rcases List.mem_append.1 he with h1 | h1
      · exact hwf.depsClosed x e h1
      · have : e = d := by simpa using h1
        exact this ▸ hd
    · rw [if_neg hx] at he
      exact hwf.depsClosed x e he
  · intro x e he
    rw [dependentsOf_pushDepEdge] at he
    rw [nodeIds_pushDepEdge]
    by_cases hx : x = d ∧ x ∈ nodeIds g
    · rw [if_pos hx] at he
      rcases List.mem_append.1 he with h1 | h1
      · exact hwf.dependentsClosed x e h1
      · have : e = c := by simpa using h1
        exact this ▸ hc
    · rw [if_neg hx] at he
      exact hwf.dependentsClosed x e he
  · intro x
    rw [inDegOf_pushDepEdge, depsOf_pushDepEdge]
    by_cases hx : x = c ∧ x ∈ nodeIds g
    · rw [if_pos hx, if_pos hx, hwf.inDeg x]
      simp
    · rw [if_neg hx, if_neg hx, hwf.inDeg x]
  · intro p q
    rw [dependentsOf_pushDepEdge, depsOf_pushDepEdge]
    by_cases hp : p = d ∧ p ∈ nodeIds g
    · by_cases hq : q = c ∧ q ∈ nodeIds g
      · rw [if_pos hp, if_pos hq]
        rw [List.count_append, List.count_append, hwf.mirror p q, hp.1, hq.1]
        simp
      · rw [if_pos hp, if_neg hq]
        rw [List.count_append, hwf.mirror p q]
        have hqc : q ≠ c := by
          intro hh
          exact hq ⟨hh, hh ▸ hc⟩
        simp [hqc]
    · by_cases hq : q = c ∧ q ∈ nodeIds g
      · rw [if_neg hp, if_pos hq]
        rw [List.count_append, hwf.mirror p q]
        have hpd : p ≠ d := by
          intro hh
          exact hp ⟨hh, hh ▸ hd⟩
        simp [hpd]
      · rw [if_neg hp, if_neg hq]
        exact hwf.mirror p q

theorem append_mkNode_wf {α : Type} {g : Graph α} {t : Task α} (hwf : WF g)
    (hfresh : ¬ t.id ∈ nodeIds g) : WF (g ++ [mkNode t]) := by
  constructor
  · rw [nodeIds_append_single]
    rw [List.nodup_append]
    refine ⟨hwf.nodup, List.nodup_singleton _, ?_⟩
    intro a ha hb
    have : a = t.id := by simpa [mkNode] using hb
    exact hfresh (this ▸ ha)
  · intro x e he
    rw [depsOf_append_mkNode] at he
    rw [nodeIds_append_single]
    exact List.mem_append_left _ (hwf.depsClosed x e he)
  · intro x e he
    rw [dependentsOf_append_mkNode] at he
    rw [nodeIds_append_single]
    exact List.mem_append_left _ (hwf.dependentsClosed x e he)
  · intro x
    rw [inDegOf_append_mkNode, depsOf_append_mkNode]
    exact hwf.inDeg x
  · intro p q
    rw [dependentsOf_append_mkNode, depsOf_append_mkNode]
    exact hwf.mirror p q

theorem linkDeps_wf {α : Type} (cId : String) :
    ∀ (ds : List String) (acc g' : Graph α), linkDeps cId ds acc = .ok g' →
      WF acc → cId ∈ nodeIds acc → WF g' := by
  intro ds
  induction ds with
  | nil =>
      intro acc g' h hwf _
      simp [linkDeps] at h
      exact h ▸ hwf
  | cons d ds ih =>
      intro acc g' h hwf hc
      simp only [linkDeps] at h
      split at h
      · rename_i hfound
        refine ih _ _ h (pushDepEdge_wf hwf hc ?_) ?_
        · rw [← findNode_isSome_iff]
          exact hfound
        · rw [nodeIds_pushDepEdge]
          exact hc
      · exact absurd h (by simp)

theorem linkDeps_nodeIds {α : Type} (cId : String) :
    ∀ (ds : List String) (acc g' : Graph α), linkDeps cId ds acc = .ok g' →
      nodeIds g' = nodeIds acc := by
  intro ds
  induction ds with
  | nil =>
      intro acc g' h
      simp [linkDeps] at h
      exact h ▸ rfl
  | cons d ds ih =>
      intro acc g' h
      simp only [linkDeps] at h
      split at h
      · rw [ih _ _ h, nodeIds_pushDepEdge]
      · exact absurd h (by simp)

theorem linkDeps_taskOf {α : Type} (cId : String) :
    ∀ (ds : List String) (acc g' : Graph α), linkDeps cId ds acc = .ok g' →
      ∀ x, taskOf g' x = taskOf acc x := by
  intro ds
  induction ds with
  | nil =>
      intro acc g' h x
      simp [linkDeps] at h
      exact h ▸ rfl
  | cons d ds ih =>
      intro acc g' h x
      simp only [linkDeps] at h
      split at h
      · rw [ih _ _ h, taskOf_pushDepEdge]
      · exact absurd h (by simp)

theorem linkDeps_prioOf {α : Type} (cId : String) :
    ∀ (ds : List String) (acc g' : Graph α), linkDeps cId ds acc = .ok g' →
      ∀ x, prioOf g' x = prioOf acc x := by
  intro ds
  induction ds with
  | nil =>
      intro acc g' h x
      simp [linkDeps] at h
      exact h ▸ rfl
  | cons d ds ih =>
      intro acc g' h x
      simp only [linkDeps] at h
      split at h
      · rw [ih _ _ h, prioOf_pushDepEdge]
      · exact absurd h (by simp)

theorem linkDeps_onErrorOf {α : Type} (cId : String) :
    ∀ (ds : List String) (acc g' : Graph α), linkDeps cId ds acc = .ok g' →
      ∀ x, onErrorOf g' x = onErrorOf acc x := by
  intro ds
  induction ds with
  | nil =>
      intro acc g' h x
      simp [linkDeps] at h
      exact h ▸ rfl
  | cons d ds ih =>
      intro acc g' h x
      simp only [linkDeps] at h
      split at h
      · rw [ih _ _ h, onErrorOf_pushDepEdge]
      · exact absurd h (by simp)

theorem linkDeps_depsOf {α : Type} (cId : String) :
    ∀ (ds : List String) (acc g' : Graph α), linkDeps cId ds acc = .ok g' →
      (∀ x, x ≠ cId → depsOf g' x = depsOf acc x) ∧
      (cId ∈ nodeIds acc → depsOf g' cId = depsOf acc cId ++ ds) := by
  intro ds
  induction ds with
  | nil =>
      intro acc g' h
      simp [linkDeps] at h
      subst h
      exact ⟨fun x _ => rfl, fun _ => by simp⟩
  | cons d ds ih =>
      intro acc g' h
      simp only [linkDeps] at h
      split at h
      · have hrec := ih _ _ h
        constructor
        · intro x hx
          rw [hrec.1 x hx, depsOf_pushDepEdge]
          simp [hx]
        · intro hcm
          have hcm' : cId ∈ nodeIds (pushDepEdge acc cId d) := by
            rw [nodeIds_pushDepEdge]
            exact hcm
          rw [hrec.2 hcm', depsOf_pushDepEdge]
          simp [hcm]
      · exact absurd h (by simp)

theorem findNode_eq_none {α : Type} {g : Graph α} {x : String} (h : ¬ x ∈ nodeIds g) :
    findNode g x = none := by
  cases hf : findNode g x with
  | none => rfl
  | some n => exact absurd ((findNode_isSome_iff g x).1 (by simp [hf])) h

theorem depsOf_of_fresh {α : Type} {g : Graph α} {x : String} (h : ¬ x ∈ nodeIds g) :
    depsOf g x = [] := by
  unfold depsOf
  rw [findNode_eq_none h]
  rfl

theorem onErrorOf_append_mkNode_self {α : Type} (g : Graph α) (t : Task α)
    (hfresh : ¬ t.id ∈ nodeIds g) :
    onErrorOf (g ++ [mkNode t]) t.id = t.onError := by
  unfold onErrorOf
  rw [findNode_append_single, findNode_eq_none hfresh]
  simp [mkNode]

theorem onErrorOf_append_mkNode_ne {α : Type} (g : Graph α) (t : Task α) (x : String)
    (hx : x ≠ t.id) : onErrorOf (g ++ [mkNode t]) x = onErrorOf g x := by
  unfold onErrorOf
  rw [findNode_append_single]
  cases h : findNode g x with
  | some n => rfl
  | none =>
      have ht : ¬ t.id = x := fun hh => hx hh.symm
      simp [mkNode, ht]

theorem taskOf_append_mkNode_self {α : Type} (g : Graph α) (t : Task α)
    (hfresh : ¬ t.id ∈ nodeIds g) :
    taskOf (g ++ [mkNode t]) t.id = t := by
  unfold taskOf
  rw [findNode_append_single, findNode_eq_none hfresh]
  simp [mkNode]

theorem addTask_wf {α : Type} {g g' : Graph α} {t : Task α} (hwf : WF g)
    (h : addTask g t = .ok g') : WF g' := by
  unfold addTask at h
  split at h
  · rename_i hfound
    refine linkDeps_wf _ _ _ _ h hwf ?_
    rw [← findNode_isSome_iff]
    exact hfound
  · rename_i hfound
    have hfresh : ¬ t.id ∈ nodeIds g := by
      rw [← findNode_isSome_iff]
      simpa using hfound
    refine linkDeps_wf _ _ _ _ h (append_mkNode_wf hwf hfresh) ?_
    rw [nodeIds_append_single]
    simp [mkNode]

theorem except_bind_ok_elim {ε σ τ : Type} {a : σ} {f : σ → Except ε τ} :
    (Except.ok a >>= f) = f a := rfl

theorem except_bind_error_elim {ε σ τ : Type} {e : ε} {f : σ → Except ε τ} :
    ((Except.error e : Except ε σ) >>= f) = Except.error e := rfl

theorem wf_nil {α : Type} : WF ([] : Graph α) := by
  constructor <;> simp [nodeIds, depsOf, dependentsOf, inDegOf, findNode]

theorem foldl_addTask_wf {α : Type} :
    ∀ (ts : List (Task α)) (acc g' : Graph α),
      ts.foldlM addTask acc = .ok g' → WF acc → WF g' := by
  intro ts
  induction ts with
  | nil =>
      intro acc g' h hwf
      simp only [List.foldlM_nil] at h
      simp [pure, Except.pure] at h
      exact h ▸ hwf
  | cons t ts ih =>
      intro acc g' h hwf
      rw [List.foldlM_cons] at h
      cases ha : addTask acc t with
      | error e =>
          rw [ha, except_bind_error_elim] at h
          exact absurd h (by simp)
      | ok g1 =>
          rw [ha, except_bind_ok_elim] at h
          exact ih _ _ h (addTask_wf hwf ha)

theorem buildGraph_wf {α : Type} {ts : List (Task α)} {g : Graph α}
    (h : buildGraph ts = .ok g) : WF g :=
  foldl_addTask_wf ts [] g h wf_nil

theorem addTask_duplicate {α : Type} {g g' : Graph α} {t : Task α}
    (hmem : t.id ∈ nodeIds g) (h : addTask g t = .ok g') :
    nodeIds g' = nodeIds g ∧ (∀ x, taskOf g' x = taskOf g x) ∧
    depsOf g' t.id = depsOf g t.id ++ t.dependencies ∧
    (∀ x, x ≠ t.id → depsOf g' x = depsOf g x) := by
  unfold addTask at h
  split at h
  · exact ⟨linkDeps_nodeIds _ _ _ _ h, linkDeps_taskOf _ _ _ _ h,
      (linkDeps_depsOf _ _ _ _ h).2 hmem, (linkDeps_depsOf _ _ _ _ h).1⟩
  · rename_i hfound
    exact absurd ((findNode_isSome_iff g t.id).2 hmem) (by simpa using hfound)

theorem addTask_fresh {α : Type} {g g' : Graph α} {t : Task α}
    (hfresh : ¬ t.id ∈ nodeIds g) (h : addTask g t = .ok g') :
    nodeIds g' = nodeIds g ++ [t.id] ∧
    depsOf g' t.id = t.dependencies ∧
    (∀ x, x ≠ t.id → depsOf g' x = depsOf g x) ∧
    prioOf g' t.id = t.priority.getD 0 ∧
    (∀ x, x ≠ t.id → prioOf g' x = prioOf g x) ∧
    onErrorOf g' t.id = t.onError ∧
    (∀ x, x ≠ t.id → onErrorOf g' x = onErrorOf g x) := by
  unfold addTask at h
  split at h
  · rename_i hfound
    exact absurd ((findNode_isSome_iff g t.id).1 hfound) hfresh
  · have hmem1 : t.id ∈ nodeIds (g ++ [mkNode t]) := by
      rw [nodeIds_append_single]
      simp [mkNode]
    refine ⟨?_, ?_, ?_, ?_, ?_, ?_, ?_⟩
    · rw [linkDeps_nodeIds _ _ _ _ h, nodeIds_append_single]
      simp [mkNode]
    · rw [(linkDeps_depsOf _ _ _ _ h).2 hmem1, depsOf_append_mkNode, depsOf_of_fresh hfresh]
      simp
    · intro x hx
      rw [(linkDeps_depsOf _ _ _ _ h).1 x hx, depsOf_append_mkNode]
    · rw [linkDeps_prioOf _ _ _ _ h, prioOf_append_mkNode_self g t hfresh]
    · intro x hx
      rw [linkDeps_prioOf _ _ _ _ h, prioOf_append_mkNode_ne g t x hx]
    · rw [linkDeps_onErrorOf _ _ _ _ h, onErrorOf_append_mkNode_self g t hfresh]
    · intro x hx
      rw [linkDeps_onErrorOf _ _ _ _ h, onErrorOf_append_mkNode_ne g t x hx]

/-- C4: for every task with `retryCount` r and `retryDelay` d, the runner
invokes the action at most r + 1 times; every failed attempt that is not the
last is followed by a sleep of d milliseconds (the sleep list is exactly one
d-sleep per non-final attempt); if all attempts fail the recorded status is
`failed` and the error of the last attempt (attempt index r) is the one
propagated; the final `attempts` counter never exceeds r + 1. -/
theorem C4_retry_policy {α : Type} (t : Task α) (args : List (Option α))
    (dur : Nat → Nat) (clock : Nat) :
    (executeTaskWithRetries t args dur clock).invocations ≤ t.retryCount.getD 0 + 1 ∧
    (executeTaskWithRetries t args dur clock).attempts ≤ t.retryCount.getD 0 + 1 ∧
    (executeTaskWithRetries t args dur clock).sleeps =
      List.replicate ((executeTaskWithRetries t args dur clock).invocations - 1)
        (t.retryDelay.getD 0) ∧
    ∀ m, (executeTaskWithRetries t args dur clock).value = .error m →
      (executeTaskWithRetries t args dur clock).invocations = t.retryCount.getD 0 + 1 ∧
      (executeTaskWithRetries t args dur clock).status = some .failed ∧
      t.action (t.retryCount.getD 0) args = .error m := by
  unfold executeTaskWithRetries
  refine ⟨retryLoop_invocations_le _ _ _ _ _ _, ?_, retryLoop_sleeps _ _ _ _ _ _, ?_⟩
  · have := retryLoop_attempts_le (fun i => t.action i args) dur (t.retryDelay.getD 0)
      (t.retryCount.getD 0) 0 clock
    omega
  · intro m hv
    have := retryLoop_error (fun i => t.action i args) dur (t.retryDelay.getD 0)
      (t.retryCount.getD 0) 0 clock m hv
    exact ⟨this.1, this.2.2.1, by simpa using this.2.2.2.2⟩

/-- Witness for C4 at a concrete always-failing task with `retryCount = 2`,
`retryDelay = 5`. -/
theorem C4_retry_policy_witness :
    (executeTaskWithRetries exhaustTask [] (fun _ => 1) 0).invocations = 2 + 1 ∧
    (executeTaskWithRetries exhaustTask [] (fun _ => 1) 0).status = some .failed ∧
    exhaustTask.action 2 [] = .error "boom" := by
  have h := (C4_retry_policy exhaustTask [] (fun _ => 1) 0).2.2.2 "boom" (by rfl)
  exact h

/-- C7 counterexample: the task `alwaysFailTask` reaches terminal status
`failed`, yet the source writes `task.metrics` zero times (the write happens
only on the success path), contradicting "its metrics record is written
exactly once … a task that fails after retries still receives exactly one
metrics write".  Moreover, for a task that fails once and then succeeds
(durations 2, retry delay 3, start clock 0), the single metrics write records
`startTime = 5`, the beginning of the final (successful) attempt rather than
the first attempt, and `duration = 2` excludes the failed attempt and the
retry delay. -/
theorem C7_counterexample :
    (executeTaskWithRetries alwaysFailTask [] (fun _ => 1) 0).status = some .failed ∧
    (executeTaskWithRetries alwaysFailTask [] (fun _ => 1) 0).metricsWrites = [] ∧
    (executeTaskWithRetries retryThenOkTask [] (fun _ => 2) 0).value = .ok 7 ∧
    (executeTaskWithRetries retryThenOkTask [] (fun _ => 2) 0).metricsWrites = [⟨5, 7, 2⟩] := by
  refine ⟨rfl, rfl, rfl, rfl⟩

/-- C7 (amended): a task that succeeds receives exactly one metrics write,
whose `startMs` is the clock at the beginning of the final (successful)
attempt — the start clock plus the time of all earlier failed attempts and
retry delays — and whose `durationMs = endMs - startMs` covers only that
final attempt; a task that fails after exhausting retries reaches status
`failed` but receives no metrics write at all. -/
theorem C7_metrics_on_success_only {α : Type} (t : Task α) (args : List (Option α))
    (dur : Nat → Nat) (clock : Nat) :
    (∀ v, (executeTaskWithRetries t args dur clock).value = .ok v →
      (executeTaskWithRetries t args dur clock).metricsWrites =
        [⟨clock + retryElapsed dur (t.retryDelay.getD 0) 0
            (executeTaskWithRetries t args dur clock).attempts,
          clock + retryElapsed dur (t.retryDelay.getD 0) 0
            (executeTaskWithRetries t args dur clock).attempts +
            dur (executeTaskWithRetries t args dur clock).attempts,
          dur (executeTaskWithRetries t args dur clock).attempts⟩]) ∧
    (∀ m, (executeTaskWithRetries t args dur clock).value = .error m →
      (executeTaskWithRetries t args dur clock).status = some .failed ∧
      (executeTaskWithRetries t args dur clock).metricsWrites = []) := by
  constructor
  · intro v hv
    have := retryLoop_ok (fun i => t.action i args) dur (t.retryDelay.getD 0)
      (t.retryCount.getD 0) 0 clock v hv
    simpa using this.2.2.2
  · intro m hv
    have := retryLoop_error (fun i => t.action i args) dur (t.retryDelay.getD 0)
      (t.retryCount.getD 0) 0 clock m hv
    exact ⟨this.2.2.1, this.2.2.2.1⟩

/-- Witness for C7's amended theorem at the concrete always-failing task. -/
theorem C7_metrics_on_success_only_witness :
    (executeTaskWithRetries alwaysFailTask [] (fun _ => 1) 0).status = some .failed ∧
    (executeTaskWithRetries alwaysFailTask [] (fun _ => 1) 0).metricsWrites = [] := by
  have h := (C7_metrics_on_success_only alwaysFailTask [] (fun _ => 1) 0).2 "always" (by rfl)
  exact h

/-- Inductive invariant of the semaphore transition system. -/
structure SemInv (k : Nat) (s : SemState) : Prop where
  balance : s.counter + s.holders.length = (k : Int)
  nonneg : 0 ≤ s.counter
  noFree : 0 < s.counter → s.waiters = []
  sorted : s.waiters.Pairwise (· < ·)
  bounded : ∀ w ∈ s.waiters, w < s.nextId

theorem semInv_init (k : Nat) : SemInv k (semInit k) := by
  constructor <;> simp [semInit]

theorem semInv_step {k : Nat} {s s' : SemState} (hinv : SemInv k s)
    (h : SemStep s s') : SemInv k s' := by
  have hb := hinv.balance
  have hn := hinv.nonneg
  cases h with
  | acquireFast hpos =>
      constructor
      · dsimp only
        simp only [List.length_append, List.length_singleton]
        push_cast at hb ⊢
        omega
      · dsimp only
        omega
      · intro hpos'
        dsimp only at hpos' ⊢
        exact hinv.noFree (by omega)
      · exact hinv.sorted
      · intro w hw
        dsimp only at hw ⊢
        have := hinv.bounded w hw
        omega
  | acquireWait hneg =>
      constructor
      · dsimp only
        exact hb
      · exact hn
      · intro hpos'
        dsimp only at hpos'
        exact absurd hpos' hneg
      · dsimp only
        rw [List.pairwise_append]
        refine ⟨hinv.sorted, List.pairwise_singleton _ _, ?_⟩
        intro a ha b hb'
        have : b = s.nextId := by simpa using hb'
        exact this ▸ hinv.bounded a ha
      · intro w hw
        dsimp only at hw ⊢
        rcases List.mem_append.1 hw with h1 | h1
        · have := hinv.bounded w h1
          omega
        · have : w = s.nextId := by simpa using h1
          omega
  | releaseNoWaiter x hx hw =>
      have hlen : (s.holders.erase x).length = s.holders.length - 1 :=
        List.length_erase_of_mem hx
      have hpos : 1 ≤ s.holders.length := by
        have := List.length_pos.2 (List.ne_nil_of_mem hx)
        omega
      constructor
      · dsimp only
        rw [hlen]
        push_cast [Nat.cast_sub hpos] at hb ⊢
        omega
      · dsimp only
        omega
      · intro _
        rfl
      · exact List.Pairwise.nil
      · intro w hw'
        simp at hw'
  | releaseHandoff x w ws hx hw =>
      have hlen : (s.holders.erase x).length = s.holders.length - 1 :=
        List.length_erase_of_mem hx
      have hpos : 1 ≤ s.holders.length := by
        have := List.length_pos.2 (List.ne_nil_of_mem hx)
        omega
      constructor
      · dsimp only
        simp only [List.length_append, List.length_singleton, hlen]
        push_cast [Nat.cast_sub hpos] at hb ⊢
        omega
      · exact hn
      · intro hpos'
        dsimp only at hpos'
        have := hinv.noFree hpos'
        rw [hw] at this
        exact absurd this (by simp)
      · dsimp only
        have := hinv.sorted
        rw [hw] at this
        exact (List.pairwise_cons.1 this).2
      · intro a ha
        dsimp only at ha ⊢
        exact hinv.bounded a (by rw [hw]; exact List.mem_cons_of_mem _ ha)

theorem semInv_of_reachable {k : Nat} {s : SemState} (h : SemReachable k s) :
    SemInv k s := by
  induction h with
  | refl => exact semInv_init k
  | tail _ hstep ih => exact semInv_step ih hstep

/-- C9: in every reachable state of the semaphore of capacity K, at most K
acquisitions are outstanding; a free permit never coexists with a waiter
(so `release` hands the permit directly to a waiter rather than letting it
pass through "free"); the waiter queue is ordered by arrival, so its head is
the longest-waiting waiter; and the only transition that removes a waiter is
a release that admits exactly the queue head, making admission strictly
first-in-first-out. -/
theorem C9_semaphore_bound_fifo (k : Nat) (hk : 1 ≤ k) (s : SemState)
    (hs : SemReachable k s) :
    s.holders.length ≤ k ∧
    (0 < s.counter → s.waiters = []) ∧
    (∀ w ws, s.waiters = w :: ws → ∀ x ∈ ws, w < x) ∧
    (∀ s', SemStep s s' → ∀ w ws, s.waiters = w :: ws →
      s'.waiters = s.waiters ++ [s.nextId] ∨ s'.waiters = s.waiters ∨
      (s'.waiters = ws ∧ w ∈ s'.holders)) := by
  have hinv := semInv_of_reachable hs
  refine ⟨?_, hinv.noFree, ?_, ?_⟩
  · have hb := hinv.balance
    have hn := hinv.nonneg
    omega
  · intro w ws hws x hxmem
    have := hinv.sorted
    rw [hws] at this
    exact (List.pairwise_cons.1 this).1 x hxmem
  · intro s' hstep w ws hws
    cases hstep with
    | acquireFast hpos => exact Or.inr (Or.inl rfl)
    | acquireWait hneg => exact Or.inl rfl
    | releaseNoWaiter x hx hw =>
        rw [hw] at hws
        exact absurd hws (by simp)
    | releaseHandoff x w' ws' hx hw =>
        rw [hw] at hws
        cases hws
        exact Or.inr (Or.inr ⟨rfl, by simp⟩)

/-- Witness for C9 at capacity 2 and the initial state. -/
theorem C9_semaphore_bound_fifo_witness :
    (semInit 2).holders.length ≤ 2 ∧
    (0 < (semInit 2).counter → (semInit 2).waiters = []) ∧
    (∀ w ws, (semInit 2).waiters = w :: ws → ∀ x ∈ ws, w < x) ∧
    (∀ s', SemStep (semInit 2) s' → ∀ w ws, (semInit 2).waiters = w :: ws →
      s'.waiters = (semInit 2).waiters ++ [(semInit 2).nextId] ∨
      s'.waiters = (semInit 2).waiters ∨
      (s'.waiters = ws ∧ w ∈ s'.holders)) :=
  C9_semaphore_bound_fifo 2 (by norm_num) (semInit 2) Relation.ReflTransGen.refl

theorem runSequence_ok_inv {α : Type} {cfg : SequenceConfig} {tasks : List (Task α)}
    {durOf : String → Nat → Nat} {clock : Nat} {r : DriveResult α}
    (h : runSequence cfg tasks durOf clock = .ok r) :
    ∃ g sorted, buildGraph tasks = .ok g ∧ topologicalSortWithPriority g = .ok sorted ∧
      r = executeTasksWithConcurrencyLimit g sorted (cfg.maxConcurrency.getD 2) durOf clock := by
  unfold runSequence at h
  cases hg : buildGraph tasks with
  | error e =>
      rw [hg] at h
      rw [show ∀ f : Graph α → Except BuildErr (DriveResult α),
          ((Except.error e : Except BuildErr (Graph α)) >>= f) = Except.error e
        from fun f => rfl] at h
      exact absurd h (by simp)
  | ok g =>
      rw [hg, except_bind_ok_elim] at h
      cases hs : topologicalSortWithPriority g with
      | error e =>
          rw [hs, except_bind_error_elim] at h
          exact absurd h (by simp)
      | ok sorted =>
          rw [hs, except_bind_ok_elim] at h
          refine ⟨g, sorted, rfl, hs, ?_⟩
          cases h
          rfl

theorem runSequence_eq_ok {α : Type} {cfg : SequenceConfig} {tasks : List (Task α)}
    {durOf : String → Nat → Nat} {clock : Nat} {g : Graph α} {sorted : List String}
    (hg : buildGraph tasks = .ok g) (hs : topologicalSortWithPriority g = .ok sorted) :
    runSequence cfg tasks durOf clock =
      .ok (executeTasksWithConcurrencyLimit g sorted (cfg.maxConcurrency.getD 2) durOf clock) := by
  unfold runSequence
  rw [hg, except_bind_ok_elim, hs, except_bind_ok_elim]

/-- C10: when the config omits `maxConcurrency`, the driver constructs the
semaphore with the default capacity 2 (`this.config.maxConcurrency ?? 2`),
so execution is bounded — in every reachable state of that semaphore at most
2 acquisitions are outstanding — but not serial: a state with exactly 2
simultaneous holders is reachable. -/
theorem C10_default_concurrency {α : Type} (cfg : SequenceConfig) (tasks : List (Task α))
    (durOf : String → Nat → Nat) (clock : Nat) (r : DriveResult α)
    (hnone : cfg.maxConcurrency = none)
    (hr : runSequence cfg tasks durOf clock = .ok r) :
    r.semCapacity = 2 ∧
    (∀ s, SemReachable 2 s → s.holders.length ≤ 2) ∧
    (∃ s, SemReachable 2 s ∧ s.holders.length = 2) := by
  obtain ⟨g, sorted, hg, hs, hr'⟩ := runSequence_ok_inv hr
  refine ⟨?_, ?_, ?_⟩
  · rw [hr']
    simp [executeTasksWithConcurrencyLimit, hnone]
  · intro s hs'
    have hinv := semInv_of_reachable hs'
    have hb := hinv.balance
    have hn := hinv.nonneg
    omega
  · refine ⟨⟨(2 : Int) - 1 - 1, [], (([] : List Nat) ++ [0]) ++ [0 + 1], 0 + 1 + 1⟩, ?_, by simp⟩
    have h1 : SemStep (semInit 2) ⟨(2 : Int) - 1, [], ([] : List Nat) ++ [0], 0 + 1⟩ :=
      SemStep.acquireFast (semInit 2) (by norm_num [semInit])
    have h2 : SemStep ⟨(2 : Int) - 1, [], ([] : List Nat) ++ [0], 0 + 1⟩
        ⟨(2 : Int) - 1 - 1, [], (([] : List Nat) ++ [0]) ++ [0 + 1], 0 + 1 + 1⟩ :=
      SemStep.acquireFast _ (by norm_num)
    exact Relation.ReflTransGen.tail (Relation.ReflTransGen.single h1) h2

/-- Witness for C10 at the one-task list with an empty config. -/
theorem C10_default_concurrency_witness :
    (executeTasksWithConcurrencyLimit [mkNode plainA] ["A"] 2 unitDur 0).semCapacity = 2 ∧
    (∀ s, SemReachable 2 s → s.holders.length ≤ 2) ∧
    (∃ s, SemReachable 2 s ∧ s.holders.length = 2) :=
  C10_default_concurrency {} [plainA] unitDur 0 _ rfl (runSequence_eq_ok rfl rfl)

/-- C6 counterexample: the list `[plainA, plainA2]` contains two descriptors
with the same id `A`, yet the build succeeds with a single merged node and
`run()` resolves after executing it (no `DuplicateTaskId` error exists in the
source, and nothing rejects). -/
theorem C6_counterexample :
    (buildGraph [plainA, plainA2]).map nodeIds = .ok ["A"] ∧
    (runSequence {} [plainA, plainA2] unitDur 0).map
      (fun r => (r.runs.map (fun nr => nr.id), r.aborted)) = .ok (["A"], none) := by
  exact ⟨rfl, rfl⟩

/-- C6 (amended): a duplicate id does not fail the build: `addTask` silently
merges the duplicate into the existing node — the node set is unchanged,
every node keeps its original task (the duplicate's action and policies are
dropped), and the duplicate's `parents` entries are appended to the existing
node's dependency list — and the run proceeds normally. -/
theorem C6_duplicate_merged {α : Type} (g g' : Graph α) (t : Task α)
    (hmem : t.id ∈ nodeIds g) (h : addTask g t = .ok g') :
    nodeIds g' = nodeIds g ∧ (∀ x, taskOf g' x = taskOf g x) ∧
    depsOf g' t.id = depsOf g t.id ++ t.dependencies ∧
    (∀ x, x ≠ t.id → depsOf g' x = depsOf g x) :=
  addTask_duplicate hmem h

/-- Witness for C6's amended theorem: merging the duplicate `plainA2` into
the one-node graph of `plainA`. -/
theorem C6_duplicate_merged_witness :
    nodeIds ([mkNode plainA] : Graph Nat) = nodeIds [mkNode plainA] ∧
    (∀ x, taskOf ([mkNode plainA] : Graph Nat) x = taskOf [mkNode plainA] x) ∧
    depsOf ([mkNode plainA] : Graph Nat) plainA2.id =
      depsOf [mkNode plainA] plainA2.id ++ plainA2.dependencies ∧
    (∀ x, x ≠ plainA2.id → depsOf ([mkNode plainA] : Graph Nat) x =
      depsOf [mkNode plainA] x) :=
  C6_duplicate_merged [mkNode plainA] [mkNode plainA] plainA2 (by decide) (by rfl)

/-- C5 counterexample: the list `[forwardB, plainA]` has pairwise-distinct
ids, every `parents` entry (`B`'s parent `A`) names the id of a descriptor in
the list, and the resulting graph is acyclic; yet the build fails with
`Dependency A not found for task B` because `addTask` resolves parents
against only the nodes added so far, so build success depends on descriptor
order. -/
theorem C5_counterexample :
    buildGraph [forwardB, plainA] = .error (.dependencyNotFound "A" "B") ∧
    runSequence {} [forwardB, plainA] unitDur 0 = .error (.dependencyNotFound "A" "B") := by
  exact ⟨rfl, rfl⟩

theorem insertDesc_perm {α : Type} (g : Graph α) (x : String) (l : List String) :
    (insertDesc g x l).Perm (x :: l) := by
  induction l with
  | nil => exact List.Perm.refl _
  | cons y ys ih =>
      simp only [insertDesc]
      split
      · exact List.Perm.refl _
      · exact (ih.cons y).trans (List.Perm.swap x y ys)

theorem sortDesc_perm {α : Type} (g : Graph α) (l : List String) :
    (sortDesc g l).Perm l := by
  induction l with
  | nil => exact List.Perm.refl _
  | cons x xs ih =>
      simp only [sortDesc]
      exact (insertDesc_perm g x (sortDesc g xs)).trans (ih.cons x)

theorem insertDesc_pairwise {α : Type} (g : Graph α) (x : String) (l : List String)
    (hl : l.Pairwise (fun a b => prioOf g b ≤ prioOf g a)) :
    (insertDesc g x l).Pairwise (fun a b => prioOf g b ≤ prioOf g a) := by
  induction l with
  | nil => exact List.pairwise_singleton _ _
  | cons y ys ih =>
      have hy := (List.pairwise_cons.1 hl).1
      have hys := (List.pairwise_cons.1 hl).2
      simp only [insertDesc]
      split
      · rename_i hcond
        rw [List.pairwise_cons]
        refine ⟨?_, hl⟩
        intro a ha
        rcases List.mem_cons.1 ha with h1 | h1
        · exact h1 ▸ hcond
        · exact le_trans (hy a h1) hcond
      · rename_i hcond
        rw [List.pairwise_cons]
        refine ⟨?_, ih hys⟩
        intro a ha
        have ha' := (insertDesc_perm g x ys).mem_iff.1 ha
        rcases List.mem_cons.1 ha' with h1 | h1
        · subst h1
          omega
        · exact hy a h1

theorem sortDesc_pairwise {α : Type} (g : Graph α) (l : List String) :
    (sortDesc g l).Pairwise (fun a b => prioOf g b ≤ prioOf g a) := by
  induction l with
  | nil => exact List.Pairwise.nil
  | cons x xs ih => exact insertDesc_pairwise g x (sortDesc g xs) ih

theorem sortDesc_head_ge {α : Type} (g : Graph α) {l : List String} {e : String}
    {rest : List String} (h : sortDesc g l = e :: rest) :
    ∀ y ∈ l, prioOf g y ≤ prioOf g e := by
  intro y hy
  have hmem : y ∈ sortDesc g l := (sortDesc_perm g l).symm.mem_iff.1 hy
  rw [h] at hmem
  rcases List.mem_cons.1 hmem with h1 | h1
  · exact h1 ▸ le_refl _
  · have := sortDesc_pairwise g l
    rw [h] at this
    exact (List.pairwise_cons.1 this).1 y h1

theorem sortDesc_head_first {α : Type} (g : Graph α) :
    ∀ (l : List String) (e : String) (rest l₁ l₂ : List String), l.Nodup →
      sortDesc g l = e :: rest → l = l₁ ++ e :: l₂ →
      ∀ y ∈ l₁, prioOf g y < prioOf g e := by
  intro l
  induction l with
  | nil =>
      intro e rest l₁ l₂ _ _ hsplit
      exact absurd hsplit (by simp)
  | cons x xs ih =>
      intro e rest l₁ l₂ hnd hsort hsplit
      have hnd1 := (List.nodup_cons.1 hnd).1
      have hnd2 := (List.nodup_cons.1 hnd).2
      cases hxs : sortDesc g xs with
      | nil =>
          have hxsnil : xs = [] := by
            have hperm := sortDesc_perm g xs
            rw [hxs] at hperm
            exact List.perm_nil.1 hperm.symm
          subst hxsnil
          simp only [sortDesc, hxs, insertDesc] at hsort
          have hex : e = x := by
            injection hsort with h1 _
            exact h1.symm
          subst hex
          rcases List.cons_eq_append_iff.1 hsplit with ⟨ha, hb⟩ | ⟨a', ha', hb'⟩
          · intro y hy
            rw [ha] at hy
            simp at hy
          · exfalso
            have : ([] : List String) = a' ++ e :: l₂ := hb'
            exact absurd this.symm (by simp)
      | cons e' rest' =>
          simp only [sortDesc, hxs, insertDesc] at hsort
          split at hsort
          · rename_i hcond
            have hex : e = x := by
              injection hsort with h1 _
              exact h1.symm
            subst hex
            rcases List.cons_eq_append_iff.1 hsplit with ⟨ha, _⟩ | ⟨a', ha', hb'⟩
            · intro y hy
              rw [ha] at hy
              simp at hy
            · exfalso
              have hmem : e ∈ xs := by
                rw [hb']
                exact List.mem_append_right _ (List.mem_cons_self _ _)
              exact hnd1 hmem
          · rename_i hcond
            have hee : e = e' := by
              injection hsort with h1 _
              exact h1.symm
            subst hee
            have hex : e ≠ x := by
              intro hh
              apply hnd1
              have : e ∈ sortDesc g xs := by
                rw [hxs]
                exact List.mem_cons_self _ _
              exact hh ▸ (sortDesc_perm g xs).mem_iff.1 this
            rcases List.cons_eq_append_iff.1 hsplit with ⟨_, hb⟩ | ⟨a', ha', hb'⟩
            · exfalso
              apply hex
              cases hb
              rfl
            · intro y hy
              rw [ha'] at hy
              rcases List.mem_cons.1 hy with h1 | h1
              · subst h1
                omega
              · exact ih e rest' a' l₂ hnd2 hxs hb' y h1

theorem sublist_insertDesc {α : Type} (g : Graph α) (x : String) (l : List String) :
    l.Sublist (insertDesc g x l) := by
  induction l with
  | nil => simp [insertDesc]
  | cons y ys ih =>
      simp only [insertDesc]
      split
      · exact (List.Sublist.refl _).cons x
      · exact List.cons_sublist_cons.2 ih

theorem insertDesc_eq_takeWhile {α : Type} (g : Graph α) (x : String) (l : List String) :
    insertDesc g x l =
      l.takeWhile (fun y => prioOf g x < prioOf g y) ++
        x :: l.dropWhile (fun y => prioOf g x < prioOf g y) := by
  induction l with
  | nil => simp [insertDesc]
  | cons y ys ih =>
      simp only [insertDesc]
      split
      · rename_i hcond
        have hp : (decide (prioOf g x < prioOf g y)) = false := by
          simp
          omega
        simp [List.takeWhile, List.dropWhile, hp]
      · rename_i hcond
        have hp : (decide (prioOf g x < prioOf g y)) = true := by
          simp
          omega
        simp [List.takeWhile, List.dropWhile, hp]
        exact ih

theorem sortDesc_stable {α : Type} (g : Graph α) :
    ∀ (l : List String) (x y : String), prioOf g x = prioOf g y →
      ([x, y] : List String).Sublist l → ([x, y] : List String).Sublist (sortDesc g l) := by
  intro l
  induction l with
  | nil =>
      intro x y _ hsub
      exact absurd hsub (by simp)
  | cons z zs ih =>
      intro x y hp hsub
      rcases List.sublist_cons_iff.1 hsub with h1 | ⟨r, hr, hrs⟩
      · exact (ih x y hp h1).trans (sublist_insertDesc g z (sortDesc g zs))
      · cases hr
        simp only [sortDesc]
        rw [insertDesc_eq_takeWhile]
        have hymem : y ∈ sortDesc g zs := by
          have hy0 : y ∈ zs := by
            have := List.Sublist.subset hrs
            simp at this
            exact this
          exact (sortDesc_perm g zs).symm.mem_iff.1 hy0
        have hynot : ¬ y ∈ (sortDesc g zs).takeWhile (fun w => prioOf g z < prioOf g w) := by
          intro hmem
          have := List.mem_takeWhile_imp hmem
          simp at this
          omega
        have hydrop : y ∈ (sortDesc g zs).dropWhile (fun w => prioOf g z < prioOf g w) := by
          have := List.takeWhile_append_dropWhile
            (fun w => decide (prioOf g z < prioOf g w)) (sortDesc g zs)
          have hy2 : y ∈ (sortDesc g zs).takeWhile (fun w => decide (prioOf g z < prioOf g w)) ++
              (sortDesc g zs).dropWhile (fun w => decide (prioOf g z < prioOf g w)) := by
            rw [this]
            exact hymem
          rcases List.mem_append.1 hy2 with h2 | h2
          · exact absurd h2 hynot
          · exact h2
        have hsub2 : ([z, y] : List String).Sublist
            (z :: (sortDesc g zs).dropWhile (fun w => prioOf g z < prioOf g w)) := by
          refine List.cons_sublist_cons.2 ?_
          exact (List.singleton_sublist).2 hydrop
        exact hsub2.trans (List.sublist_append_right _ _)

theorem find?_degSet (m : List (String × Int)) (x : String) (v : Int) (y : String) :
    (degSet m x v).find? (fun p => p.1 == y) =
      (m.find? (fun p => p.1 == y)).map (fun p => if p.1 == x then (p.1, v) else p) := by
  unfold degSet
  rw [List.find?_map]
  have hp : ((fun p : String × Int => p.1 == y) ∘ (fun p => if p.1 == x then (p.1, v) else p))
      = fun p : String × Int => p.1 == y := by
    funext p
    dsimp [Function.comp]
    split <;> rfl
  rw [hp]

theorem degLookup_degSet (m : List (String × Int)) (x : String) (v : Int) (y : String) :
    degLookup (degSet m x v) y =
      if y = x ∧ (m.find? (fun p => p.1 == y)).isSome then v else degLookup m y := by
  unfold degLookup
  rw [find?_degSet]
  cases h : m.find? (fun p => p.1 == y) with
  | none => simp
  | some p =>
      have hp1 : p.1 = y := by
        have := List.find?_some h
        simpa using this
      by_cases hyx : y = x
      · simp [hp1, hyx]
      · simp [hp1, hyx]

theorem degSet_find?_isSome (m : List (String × Int)) (x : String) (v : Int) (y : String) :
    ((degSet m x v).find? (fun p => p.1 == y)).isSome =
      (m.find? (fun p => p.1 == y)).isSome := by
  rw [find?_degSet]
  cases h : m.find? (fun p => p.1 == y) <;> simp

theorem processDependents_find?_isSome (ds : List String) :
    ∀ (m : List (String × Int)) (y : String),
      ((processDependents m ds).1.find? (fun p => p.1 == y)).isSome =
        (m.find? (fun p => p.1 == y)).isSome := by
  induction ds with
  | nil => intro m y; rfl
  | cons d ds ih =>
      intro m y
      simp only [processDependents]
      rw [ih, degSet_find?_isSome]

theorem processDependents_lookup (ds : List String) :
    ∀ (m : List (String × Int)) (x : String),
      (∀ d ∈ ds, (m.find? (fun p => p.1 == d)).isSome) →
      degLookup (processDependents m ds).1 x = degLookup m x - (ds.count x : Int) := by
  induction ds with
  | nil =>
      intro m x _
      simp [processDependents]
  | cons d ds ih =>
      intro m x hall
      simp only [processDependents]
      have hd : (m.find? (fun p => p.1 == d)).isSome := hall d (List.mem_cons_self _ _)
      have hall' : ∀ e ∈ ds, (((degSet m d (degLookup m d - 1)).find?
          (fun p => p.1 == e)).isSome) := by
        intro e he
        rw [degSet_find?_isSome]
        exact hall e (List.mem_cons_of_mem _ he)
      rw [ih _ x hall', degLookup_degSet]
      by_cases hxd : x = d
      · subst hxd
        rw [if_pos ⟨rfl, hd⟩]
        rw [List.count_cons_self]
        push_cast
        omega
      · rw [if_neg (by intro hh; exact hxd hh.1)]
        rw [List.count_cons_of_ne (by intro hh; exact hxd hh)]

theorem processDependents_pushed_count (ds : List String) :
    ∀ (m : List (String × Int)) (x : String),
      (∀ d ∈ ds, (m.find? (fun p => p.1 == d)).isSome) →
      ((processDependents m ds).2.count x : Int) =
        if 1 ≤ degLookup m x ∧ degLookup m x ≤ (ds.count x : Int) then 1 else 0 := by
  induction ds with
  | nil =>
      intro m x _
      simp only [processDependents, List.count_nil]
      rw [if_neg]
      · rfl
      · intro hh
        have h1 := hh.1
        have h2 := hh.2
        simp at h2
        omega
  | cons d ds ih =>
      intro m x hall
      simp only [processDependents]
      have hd : (m.find? (fun p => p.1 == d)).isSome := hall d (List.mem_cons_self _ _)
      have hall' : ∀ e ∈ ds, (((degSet m d (degLookup m d - 1)).find?
          (fun p => p.1 == e)).isSome) := by
        intro e he
        rw [degSet_find?_isSome]
        exact hall e (List.mem_cons_of_mem _ he)
      by_cases hxd : x = d
      · subst hxd
        have hlk : degLookup (degSet m x (degLookup m x - 1)) x = degLookup m x - 1 := by
          rw [degLookup_degSet, if_pos ⟨rfl, hd⟩]
        have hih := ih _ x hall'
        rw [hlk] at hih
        rw [List.count_append, List.count_cons_self]
        have hsing : List.count x (if degLookup m x - 1 = 0 then [x] else []) =
            if degLookup m x - 1 = 0 then 1 else 0 := by
          split
          · simp
          · simp
        rw [hsing]
        push_cast
        push_cast at hih
        split_ifs at hih ⊢ <;> omega
      · have hne : x ≠ d := hxd
        have hlk : degLookup (degSet m d (degLookup m d - 1)) x = degLookup m x := by
          rw [degLookup_degSet, if_neg (fun hh => hxd hh.1)]
        have hih := ih _ x hall'
        rw [hlk] at hih
        rw [List.count_append, List.count_cons_of_ne hne]
        have hz : List.count x (if degLookup m d - 1 = 0 then [d] else []) = 0 := by
          split
          · exact List.count_eq_zero.2 (by simp [hne])
          · simp
        rw [hz]
        push_cast
        push_cast at hih
        split_ifs at hih ⊢ <;> omega

theorem findNode_of_mem {α : Type} {g : Graph α} (hnd : (nodeIds g).Nodup)
    {n : GraphNode α} (hn : n ∈ g) : findNode g n.id = some n := by
  induction g with
  | nil => simp at hn
  | cons m ms ih =>
      simp only [nodeIds, List.map_cons, List.nodup_cons] at hnd
      rcases List.mem_cons.1 hn with h1 | h1
      · subst h1
        unfold findNode
        simp [List.find?]
      · unfold findNode
        have hne : (m.id == n.id) = false := by
          simp only [beq_eq_false_iff_ne, ne_eq]
          intro hh
          apply hnd.1
          rw [hh]
          exact List.mem_map_of_mem _ h1
        simp only [List.find?, hne]
        exact ih hnd.2 h1

theorem mem_nodeIds_iff {α : Type} (g : Graph α) (x : String) :
    x ∈ nodeIds g ↔ ∃ n ∈ g, n.id = x := by
  unfold nodeIds
  simp [List.mem_map]

/-- The inductive invariant of the Kahn loop on a well-formed graph. -/
structure KInv {α : Type} (g : Graph α) (s : KState) : Prop where
  nodupOQ : (s.out ++ s.queue).Nodup
  outIds : ∀ x ∈ s.out, x ∈ nodeIds g
  queueIds : ∀ x ∈ s.queue, x ∈ nodeIds g
  degKeys : ∀ y, ((s.inDeg.find? (fun p => p.1 == y)).isSome) = true ↔ y ∈ nodeIds g
  degVal : ∀ x, x ∈ nodeIds g →
    degLookup s.inDeg x = (((depsOf g x).filter (fun d => decide (¬ d ∈ s.out))).length : Int)
  queueReady : ∀ x ∈ s.queue, ∀ d ∈ depsOf g x, d ∈ s.out
  outRespect : ∀ l₁ x l₂, s.out = l₁ ++ x :: l₂ → ∀ d ∈ depsOf g x, d ∈ l₁
  complete : ∀ x, x ∈ nodeIds g → (∀ d ∈ depsOf g x, d ∈ s.out) → x ∈ s.out ∨ x ∈ s.queue

theorem KInv.outDepsClosed {α : Type} {g : Graph α} {s : KState} (hinv : KInv g s) :
    ∀ x ∈ s.out, ∀ d ∈ depsOf g x, d ∈ s.out := by
  intro x hx d hd
  obtain ⟨l₁, l₂, hsplit⟩ := List.append_of_mem hx
  have := hinv.outRespect l₁ x l₂ hsplit d hd
  rw [hsplit]
  exact List.mem_append_left _ this

theorem kahnInit_find? {α : Type} (g : Graph α) (y : String) :
    ((g.map (fun n => (n.id, n.inDegree))).find? (fun p => p.1 == y)) =
      (findNode g y).map (fun n => (n.id, n.inDegree)) := by
  unfold findNode
  rw [List.find?_map]
  have hp : ((fun p : String × Int => p.1 == y) ∘ (fun n : GraphNode α => (n.id, n.inDegree)))
      = fun n : GraphNode α => n.id == y := by
    funext n
    rfl
  rw [hp]

theorem kahnInit_inv {α : Type} {g : Graph α} (hwf : WF g) : KInv g (kahnInit g) := by
  have hqueue : ∀ x, x ∈ (kahnInit g).queue ↔
      ∃ n ∈ g, n.id = x ∧ n.inDegree = 0 := by
    intro x
    simp only [kahnInit, List.mem_map, List.mem_filter]
    constructor
    · rintro ⟨n, ⟨hn, hdeg⟩, hid⟩
      exact ⟨n, hn, hid, by simpa using hdeg⟩
    · rintro ⟨n, hn, hid, hdeg⟩
      exact ⟨n, ⟨hn, by simpa using hdeg⟩, hid⟩
  constructor
  · simp only [kahnInit, List.nil_append]
    have hsub : ((g.filter (fun n => n.inDegree == 0)).map (·.id)).Sublist (nodeIds g) :=
      (List.filter_sublist g).map _
    exact List.Nodup.sublist hsub hwf.nodup
  · intro x hx
    rw [show (kahnInit g).out = [] from rfl] at hx
    simp at hx
  · intro x hx
    rcases (hqueue x).1 hx with ⟨n, hn, hid, _⟩
    exact (mem_nodeIds_iff g x).2 ⟨n, hn, hid⟩
  · intro y
    simp only [kahnInit]
    rw [kahnInit_find?]
    rw [← findNode_isSome_iff]
    cases findNode g y <;> simp
  · intro x hx
    have hsome := (findNode_isSome_iff g x).2 hx
    cases hfn : findNode g x with
    | none => rw [hfn] at hsome; simp at hsome
    | some n =>
        have hval : degLookup (kahnInit g).inDeg x = n.inDegree := by
          unfold degLookup
          rw [show (kahnInit g).inDeg = g.map (fun m => (m.id, m.inDegree)) from rfl]
          rw [kahnInit_find?, hfn]
          rfl
        rw [hval]
        have h1 : n.inDegree = inDegOf g x := by
          unfold inDegOf
          rw [hfn]
          rfl
        rw [h1, hwf.inDeg x]
        rw [show (kahnInit g).out = [] from rfl]
        have h2 : (depsOf g x).filter (fun d => decide (¬ d ∈ ([] : List String)))
            = depsOf g x := by
          rw [List.filter_eq_self]
          intro a _
          simp
        rw [h2]
  · intro x hx d hd
    rcases (hqueue x).1 hx with ⟨n, hn, hid, hdeg⟩
    have hfn : findNode g x = some n := hid ▸ findNode_of_mem hwf.nodup hn
    have h1 : inDegOf g x = 0 := by
      unfold inDegOf
      rw [hfn]
      simpa using hdeg
    have h2 : depsOf g x = [] := by
      have := hwf.inDeg x
      rw [h1] at this
      have hlen : (depsOf g x).length = 0 := by
        omega
      exact List.length_eq_zero.1 hlen
    rw [h2] at hd
    simp at hd
  · intro l₁ x l₂ hsplit
    rw [show (kahnInit g).out = [] from rfl] at hsplit
    exact absurd hsplit.symm (by simp)
  · intro x hx hdeps
    right
    have h2 : depsOf g x = [] := by
      rw [List.eq_nil_iff_forall_not_mem]
      intro a ha
      have := hdeps a ha
      rw [show (kahnInit g).out = [] from rfl] at this
      simp at this
    rcases (mem_nodeIds_iff g x).1 hx with ⟨n, hn, hid⟩
    have hfn : findNode g x = some n := hid ▸ findNode_of_mem hwf.nodup hn
    have hdeg0 : n.inDegree = 0 := by
      have h3 : inDegOf g x = ((depsOf g x).length : Int) := hwf.inDeg x
      rw [h2] at h3
      unfold inDegOf at h3
      rw [hfn] at h3
      simpa using h3
    exact (hqueue x).2 ⟨n, hn, hid, hdeg0⟩

theorem filter_not_mem_append_single (l out : List String) (e : String) (he : ¬ e ∈ out) :
    ((l.filter (fun d => decide (¬ d ∈ out ++ [e]))).length : Int) =
      ((l.filter (fun d => decide (¬ d ∈ out))).length : Int) - (l.count e : Int) := by
  induction l with
  | nil => simp
  | cons d l' ih =>
      by_cases hde : d = e
      · subst hde
        have h1 : (decide (¬ d ∈ out ++ [d])) = false := by simp
        have h2 : (decide (¬ d ∈ out)) = true := by simpa using he
        rw [List.filter_cons, List.filter_cons, List.count_cons_self, h1, h2,
          if_neg Bool.false_ne_true, if_pos rfl]
        simp only [List.length_cons]
        push_cast
        push_cast at ih
        omega
      · have hcnt : (d :: l').count e = l'.count e := List.count_cons_of_ne (fun hh => hde hh.symm) _
        by_cases hdo : d ∈ out
        · have h1 : (decide (¬ d ∈ out ++ [e])) = false := by simp [hdo]
          have h2 : (decide (¬ d ∈ out)) = false := by simp [hdo]
          rw [List.filter_cons, List.filter_cons, hcnt, h1, h2,
            if_neg Bool.false_ne_true, if_neg Bool.false_ne_true]
          exact ih
        · have h1 : (decide (¬ d ∈ out ++ [e])) = true := by simp [hdo, hde]
          have h2 : (decide (¬ d ∈ out)) = true := by simp [hdo]
          rw [List.filter_cons, List.filter_cons, hcnt, h1, h2, if_pos rfl, if_pos rfl]
          simp only [List.length_cons]
          push_cast
          push_cast at ih
          omega

theorem append_singleton_eq_split {a : List String} {e : String} {l₁ : List String}
    {x : String} {l₂ : List String} (h : a ++ [e] = l₁ ++ x :: l₂) :
    (∃ l₂', a = l₁ ++ x :: l₂') ∨ (l₁ = a ∧ x = e ∧ l₂ = []) := by
  rcases List.append_eq_append_iff.1 h with ⟨a', ha, hb⟩ | ⟨c', hc, hd⟩
  · cases a' with
    | nil =>
        right
        have h0 : ([e] : List String) = x :: l₂ := hb
        have hp := List.cons.inj h0
        exact ⟨by rw [ha]; simp, hp.1.symm, hp.2.symm⟩
    | cons y ys =>
        exfalso
        have hlen : ([e] : List String).length = ((y :: ys) ++ x :: l₂).length := by rw [hb]
        simp only [List.length_append, List.length_cons, List.length_singleton,
          List.length_nil] at hlen
        omega
  · cases c' with
    | nil =>
        right
        have h0 : x :: l₂ = [e] := hd
        have hp := List.cons.inj h0
        exact ⟨by rw [hc]; simp, hp.1, hp.2⟩
    | cons y ys =>
        left
        have h0 : x :: l₂ = y :: (ys ++ [e]) := hd
        have hp := List.cons.inj h0
        exact ⟨ys, by rw [hc, ← hp.1]⟩

theorem kahnStep_inv {α : Type} {g : Graph α} {s : KState} (hwf : WF g)
    (hinv : KInv g s) (hne : s.queue ≠ []) : KInv g (kahnStep g s) := by
  cases hsort : sortDesc g s.queue with
  | nil =>
      exfalso
      have hp := sortDesc_perm g s.queue
      rw [hsort] at hp
      exact hne (List.perm_nil.1 hp.symm)
  | cons e rest =>
      have hperm : (e :: rest).Perm s.queue := by
        have := sortDesc_perm g s.queue
        rw [hsort] at this
        exact this
      have houtnd : s.out.Nodup := (List.nodup_append.1 hinv.nodupOQ).1
      have hqnodup : s.queue.Nodup := (List.nodup_append.1 hinv.nodupOQ).2.1
      have hdisjOQ : ∀ a ∈ s.out, a ∉ s.queue := (List.nodup_append.1 hinv.nodupOQ).2.2
      have hern : (e :: rest).Nodup := hperm.symm.nodup hqnodup
      have heq : e ∈ s.queue := hperm.mem_iff.1 (List.mem_cons_self _ _)
      have hrestq : ∀ x ∈ rest, x ∈ s.queue :=
        fun x hx => hperm.mem_iff.1 (List.mem_cons_of_mem _ hx)
      have henot : e ∉ rest := (List.nodup_cons.1 hern).1
      have hrestnd : rest.Nodup := (List.nodup_cons.1 hern).2
      have heout : ¬ e ∈ s.out := fun hh => hdisjOQ e hh heq
      have hedeps : ∀ d ∈ depsOf g e, d ∈ s.out := hinv.queueReady e heq
      have hdepIds : ∀ d ∈ dependentsOf g e, d ∈ nodeIds g :=
        fun d hd => hwf.dependentsClosed e d hd
      have hfindSome : ∀ d ∈ dependentsOf g e,
          (s.inDeg.find? (fun p => p.1 == d)).isSome = true :=
        fun d hd => (hinv.degKeys d).2 (hdepIds d hd)
      have hcount := fun x =>
        processDependents_pushed_count (dependentsOf g e) s.inDeg x hfindSome
      have hlookup := fun x =>
        processDependents_lookup (dependentsOf g e) s.inDeg x hfindSome
      have hLfacts : ∀ x ∈ (processDependents s.inDeg (dependentsOf g e)).2,
          x ∈ nodeIds g ∧ 1 ≤ (depsOf g x).count e ∧ x ∉ s.out ∧ x ∉ s.queue ∧
          (∀ d ∈ depsOf g x, d ∈ s.out ++ [e]) := by
        intro x hx
        have hpos : 0 < (processDependents s.inDeg (dependentsOf g e)).2.count x :=
          List.count_pos_iff.2 hx
        have hcond : 1 ≤ degLookup s.inDeg x ∧
            degLookup s.inDeg x ≤ ((dependentsOf g e).count x : Int) := by
          by_contra hcond
          have hc0 := hcount x
          rw [if_neg hcond] at hc0
          omega
        have hmirror : (dependentsOf g e).count x = (depsOf g x).count e := hwf.mirror e x
        have hxids : x ∈ nodeIds g := by
          apply hdepIds
          apply List.count_pos_iff.1
          have h1 := hcond.1
          have h2 := hcond.2
          omega
        have hL := hinv.degVal x hxids
        have hcf : ((depsOf g x).filter (fun d => decide (¬ d ∈ s.out))).count e =
            (depsOf g x).count e := List.count_filter (by simpa using heout)
        have hge : ((depsOf g x).count e : Int) ≤ degLookup s.inDeg x := by
          rw [hL]
          have hle := List.count_le_length (a := e)
            (l := (depsOf g x).filter (fun d => decide (¬ d ∈ s.out)))
          rw [hcf] at hle
          exact_mod_cast hle
        have hLeq : degLookup s.inDeg x = ((depsOf g x).count e : Int) := by
          have h2 := hcond.2
          rw [hmirror] at h2
          omega
        have hecnt : 1 ≤ (depsOf g x).count e := by
          have h1 := hcond.1
          rw [hLeq] at h1
          exact_mod_cast h1
        have hemem : e ∈ depsOf g x := List.count_pos_iff.1 (by omega)
        have hxout : x ∉ s.out := by
          intro hh
          exact heout (hinv.outDepsClosed x hh e hemem)
        have hxqueue : x ∉ s.queue := by
          intro hh
          exact heout (hinv.queueReady x hh e hemem)
        have hsubafter : ∀ d ∈ depsOf g x, d ∈ s.out ++ [e] := by
          intro d hd
          by_cases hdo : d ∈ s.out
          · exact List.mem_append_left _ hdo
          · have hdf : d ∈ (depsOf g x).filter (fun w => decide (¬ w ∈ s.out)) :=
              List.mem_filter.2 ⟨hd, by simpa using hdo⟩
            have hall : ∀ b ∈ (depsOf g x).filter (fun w => decide (¬ w ∈ s.out)), e = b := by
              apply List.count_eq_length.1
              have hlen : (((depsOf g x).filter
                  (fun w => decide (¬ w ∈ s.out))).length : Int) =
                  ((depsOf g x).count e : Int) := by
                rw [← hL, hLeq]
              rw [← hcf] at hlen
              exact_mod_cast hlen.symm
            have hde : e = d := hall d hdf
            rw [← hde]
            exact List.mem_append_right _ (List.mem_cons_self _ _)
        exact ⟨hxids, hecnt, hxout, hxqueue, hsubafter⟩
      have hpush_of : ∀ x, x ∈ nodeIds g → e ∈ depsOf g x →
          (∀ d ∈ depsOf g x, d ∈ s.out ++ [e]) →
          x ∈ (processDependents s.inDeg (dependentsOf g e)).2 := by
        intro x hxids hemem hsubafter
        have hL := hinv.degVal x hxids
        have hcf : ((depsOf g x).filter (fun d => decide (¬ d ∈ s.out))).count e =
            (depsOf g x).count e := List.count_filter (by simpa using heout)
        have hef : e ∈ (depsOf g x).filter (fun w => decide (¬ w ∈ s.out)) :=
          List.mem_filter.2 ⟨hemem, by simpa using heout⟩
        have hallval : ∀ b ∈ (depsOf g x).filter (fun w => decide (¬ w ∈ s.out)), e = b := by
          intro b hb
          have hbmem := (List.mem_filter.1 hb).1
          have hbnot : ¬ b ∈ s.out := by
            have := (List.mem_filter.1 hb).2
            simpa using this
          have hball := hsubafter b hbmem
          rcases List.mem_append.1 hball with h1 | h1
          · exact absurd h1 hbnot
          · have : b = e := by simpa using h1
            exact this.symm
        have hlencnt : ((depsOf g x).filter (fun w => decide (¬ w ∈ s.out))).count e =
            ((depsOf g x).filter (fun w => decide (¬ w ∈ s.out))).length :=
          List.count_eq_length.2 hallval
        have h1L : 1 ≤ degLookup s.inDeg x := by
          rw [hL]
          have hpos : 0 < ((depsOf g x).filter (fun w => decide (¬ w ∈ s.out))).length :=
            List.length_pos.2 (List.ne_nil_of_mem hef)
          exact_mod_cast hpos
        have hLle : degLookup s.inDeg x ≤ ((dependentsOf g e).count x : Int) := by
          rw [hL, hwf.mirror e x]
          rw [← hcf, hlencnt]
        have hc := hcount x
        rw [if_pos ⟨h1L, hLle⟩] at hc
        apply List.count_pos_iff.1
        omega
      have hgoal : kahnStep g s =
          ⟨rest ++ (processDependents s.inDeg (dependentsOf g e)).2,
            (processDependents s.inDeg (dependentsOf g e)).1, s.out ++ [e]⟩ := by
        simp only [kahnStep, hsort]
      rw [hgoal]
      have hpushednd : (processDependents s.inDeg (dependentsOf g e)).2.Nodup := by
        rw [List.nodup_iff_count_le_one]
        intro a
        have hc := hcount a
        split at hc <;> omega
      constructor
      · dsimp only
        rw [List.append_assoc]
        rw [List.nodup_append]
        refine ⟨houtnd, ?_, ?_⟩
        · rw [show ([e] ++ (rest ++ (processDependents s.inDeg (dependentsOf g e)).2)) =
            e :: (rest ++ (processDependents s.inDeg (dependentsOf g e)).2) from rfl]
          rw [List.nodup_cons]
          constructor
          · intro hh
            rcases List.mem_append.1 hh with h1 | h1
            · exact henot h1
            · exact (hLfacts e h1).2.2.2.1 heq
          · rw [List.nodup_append]
            refine ⟨hrestnd, hpushednd, ?_⟩
            intro a ha hb
            exact (hLfacts a hb).2.2.2.1 (hrestq a ha)
        · intro a ha hb
          rcases List.mem_append.1 hb with h1 | h1
          · have : a = e := by simpa using h1
            exact heout (this ▸ ha)
          · rcases List.mem_append.1 h1 with h2 | h2
            · exact hdisjOQ a ha (hrestq a h2)
            · exact (hLfacts a h2).2.2.1 ha
      · intro x hx
        dsimp only at hx
        rcases List.mem_append.1 hx with h1 | h1
        · exact hinv.outIds x h1
        · have : x = e := by simpa using h1
          exact this ▸ hinv.queueIds e heq
      · intro x hx
        dsimp only at hx
        rcases List.mem_append.1 hx with h1 | h1
        · exact hinv.queueIds x (hrestq x h1)
        · exact (hLfacts x h1).1
      · intro y
        dsimp only
        rw [processDependents_find?_isSome]
        exact hinv.degKeys y
      · intro x hxids
        dsimp only
        rw [hlookup x, hinv.degVal x hxids, hwf.mirror e x]
        rw [filter_not_mem_append_single (depsOf g x) s.out e heout]
      · intro x hx d hd
        dsimp only at hx ⊢
        rcases List.mem_append.1 hx with h1 | h1
        · exact List.mem_append_left _ (hinv.queueReady x (hrestq x h1) d hd)
        · exact (hLfacts x h1).2.2.2.2 d hd
      · intro l₁ x l₂ hsplit d hd
        dsimp only at hsplit
        rcases append_singleton_eq_split hsplit with ⟨l₂', hsp⟩ | ⟨hl₁, hxe, _⟩
        · exact hinv.outRespect l₁ x l₂' hsp d hd
        · subst hxe
          rw [hl₁]
          exact hedeps d hd
      · intro x hxids hdeps'
        dsimp only at hdeps' ⊢
        by_cases hall : ∀ d ∈ depsOf g x, d ∈ s.out
        · rcases hinv.complete x hxids hall with h1 | h1
          · exact Or.inl (List.mem_append_left _ h1)
          · have hxq : x ∈ e :: rest := hperm.symm.mem_iff.1 h1
            rcases List.mem_cons.1 hxq with h2 | h2
            · exact Or.inl (List.mem_append_right _ (by simp [h2]))
            · exact Or.inr (List.mem_append_left _ h2)
        · push_neg at hall
          obtain ⟨d₀, hd₀, hd₀out⟩ := hall
          have hd₀e : d₀ = e := by
            have := hdeps' d₀ hd₀
            rcases List.mem_append.1 this with h1 | h1
            · exact absurd h1 hd₀out
            · simpa using h1
          have hemem : e ∈ depsOf g x := hd₀e ▸ hd₀
          exact Or.inr (List.mem_append_right _ (hpush_of x hxids hemem hdeps'))

theorem kahnLoop_inv {α : Type} {g : Graph α} (hwf : WF g) :
    ∀ (fuel : Nat) (s : KState), KInv g s → KInv g (kahnLoop g fuel s) := by
  intro fuel
  induction fuel with
  | zero =>
      intro s hs
      exact hs
  | succ f ih =>
      intro s hs
      simp only [kahnLoop]
      split
      · exact hs
      · rename_i hq
        refine ih _ (kahnStep_inv hwf hs ?_)
        intro hh
        rw [hh] at hq
        simp at hq

theorem kahnStep_out_length {α : Type} (g : Graph α) (s : KState) (hne : s.queue ≠ []) :
    (kahnStep g s).out.length = s.out.length + 1 := by
  cases hsort : sortDesc g s.queue with
  | nil =>
      exfalso
      have hp := sortDesc_perm g s.queue
      rw [hsort] at hp
      exact hne (List.perm_nil.1 hp.symm)
  | cons e rest =>
      simp [kahnStep, hsort]

theorem subset_full_of_len {l ids : List String} (hnd : l.Nodup) (hids : ids.Nodup)
    (hsub : ∀ x ∈ l, x ∈ ids) (hlen : ids.length ≤ l.length) : ∀ x ∈ ids, x ∈ l := by
  intro x hx
  have hsubF : l.toFinset ⊆ ids.toFinset := by
    intro a ha
    rw [List.mem_toFinset] at ha ⊢
    exact hsub a ha
  have hcard : ids.toFinset.card ≤ l.toFinset.card := by
    rw [List.toFinset_card_of_nodup hnd, List.toFinset_card_of_nodup hids]
    exact hlen
  have heq := Finset.eq_of_subset_of_card_le hsubF hcard
  have hx2 : x ∈ l.toFinset := by
    rw [heq]
    exact List.mem_toFinset.2 hx
  exact List.mem_toFinset.1 hx2

theorem kahnLoop_queue_empty {α : Type} {g : Graph α} (hwf : WF g) :
    ∀ (fuel : Nat) (s : KState), KInv g s →
      (nodeIds g).length ≤ s.out.length + fuel → (kahnLoop g fuel s).queue = [] := by
  intro fuel
  induction fuel with
  | zero =>
      intro s hs hlen
      simp only [kahnLoop]
      by_contra hne
      obtain ⟨y, hy⟩ : ∃ y, y ∈ s.queue := by
        cases hq : s.queue with
        | nil => exact absurd hq hne
        | cons a l => exact ⟨a, List.mem_cons_self _ _⟩
      have houtnd : s.out.Nodup := (List.nodup_append.1 hs.nodupOQ).1
      have hcover : ∀ z ∈ nodeIds g, z ∈ s.out :=
        subset_full_of_len houtnd hwf.nodup hs.outIds (by omega)
      have hyids := hs.queueIds y hy
      have hyout : y ∈ s.out := hcover y hyids
      exact (List.nodup_append.1 hs.nodupOQ).2.2 hyout hy
  | succ f ih =>
      intro s hs hlen
      simp only [kahnLoop]
      split
      · rename_i hq
        exact List.isEmpty_iff.1 hq
      · rename_i hq
        have hne : s.queue ≠ [] := by
          intro hh
          rw [hh] at hq
          simp at hq
        refine ih _ (kahnStep_inv hwf hs hne) ?_
        rw [kahnStep_out_length g s hne]
        omega

theorem topo_ok_props {α : Type} {g : Graph α} {sorted : List String} (hwf : WF g)
    (h : topologicalSortWithPriority g = .ok sorted) :
    sorted.Nodup ∧ (∀ x, x ∈ sorted ↔ x ∈ nodeIds g) ∧
    (∀ l₁ x l₂, sorted = l₁ ++ x :: l₂ → ∀ d ∈ depsOf g x, d ∈ l₁) := by
  unfold topologicalSortWithPriority at h
  have h' : (if (kahnLoop g g.length (kahnInit g)).out.length = g.length
      then (Except.ok (kahnLoop g g.length (kahnInit g)).out : Except BuildErr (List String))
      else .error .cycleDetected) = .ok sorted := h
  clear h
  split at h'
  · rename_i hlen
    have hsorted : sorted = (kahnLoop g g.length (kahnInit g)).out := by
      injection h' with h1
      exact h1.symm
    have hinv := kahnLoop_inv hwf g.length (kahnInit g) (kahnInit_inv hwf)
    have hnodup : (kahnLoop g g.length (kahnInit g)).out.Nodup :=
      (List.nodup_append.1 hinv.nodupOQ).1
    have hidslen : (nodeIds g).length = g.length := by simp [nodeIds]
    have hcover := subset_full_of_len hnodup hwf.nodup hinv.outIds (by omega)
    subst hsorted
    exact ⟨hnodup, fun x => ⟨hinv.outIds x, hcover x⟩, hinv.outRespect⟩
  · exact absurd h' (by simp)

/-- C8: the planner's output is a dependency-respecting total order (every
dependency of a node precedes it in the output); each time the Kahn loop
extracts a node from the ready queue it takes the head of the stable
descending sort, which has maximal priority among queue members and is the
first of the maximal-priority members in queue order (everything before it
has strictly lower priority); the stable sort preserves the relative order of
equal-priority members, so ties are broken by earliest insertion into the
pool; and for the three independent roots A (priority 1), B (priority 5),
C (priority 3) run with concurrency 1, the launch order is B, then C, then
A. -/
theorem C8_priority_topological_order {α : Type} (ts : List (Task α)) (g : Graph α)
    (sorted : List String)
    (hg : buildGraph ts = .ok g) (hs : topologicalSortWithPriority g = .ok sorted) :
    (∀ l₁ x l₂, sorted = l₁ ++ x :: l₂ → ∀ d ∈ depsOf g x, d ∈ l₁) ∧
    (∀ queue e rest, sortDesc g queue = e :: rest →
      (∀ y ∈ queue, prioOf g y ≤ prioOf g e) ∧
      (queue.Nodup → ∀ l₁ l₂, queue = l₁ ++ e :: l₂ → ∀ y ∈ l₁, prioOf g y < prioOf g e)) ∧
    (∀ queue x y, prioOf g x = prioOf g y → ([x, y] : List String).Sublist queue →
      ([x, y] : List String).Sublist (sortDesc g queue)) ∧
    ((runSequence { maxConcurrency := some 1 } [rootA, rootB, rootC] unitDur 0).map
      (fun r => r.runs.map (fun nr => nr.id)) = .ok ["B", "C", "A"]) := by
  have hwf := buildGraph_wf hg
  refine ⟨(topo_ok_props hwf hs).2.2, ?_, ?_, ?_⟩
  · intro queue e rest hsort
    exact ⟨sortDesc_head_ge g hsort,
      fun hnd l₁ l₂ hsplit => sortDesc_head_first g queue e rest l₁ l₂ hnd hsort hsplit⟩
  · intro queue x y hp hsub
    exact sortDesc_stable g queue x y hp hsub
  · rfl

/-- Witness for C8 at the three-root example graph. -/
theorem C8_priority_topological_order_witness :
    ((∀ l₁ x l₂, ["B", "C", "A"] = l₁ ++ x :: l₂ → ∀ d ∈ depsOf rootsGraph x, d ∈ l₁) ∧
    (∀ queue e rest, sortDesc rootsGraph queue = e :: rest →
      (∀ y ∈ queue, prioOf rootsGraph y ≤ prioOf rootsGraph e) ∧
      (queue.Nodup → ∀ l₁ l₂, queue = l₁ ++ e :: l₂ →
        ∀ y ∈ l₁, prioOf rootsGraph y < prioOf rootsGraph e)) ∧
    (∀ queue x y, prioOf rootsGraph x = prioOf rootsGraph y →
      ([x, y] : List String).Sublist queue →
      ([x, y] : List String).Sublist (sortDesc rootsGraph queue)) ∧
    ((runSequence { maxConcurrency := some 1 } [rootA, rootB, rootC] unitDur 0).map
      (fun r => r.runs.map (fun nr => nr.id)) = .ok ["B", "C", "A"])) :=
  C8_priority_topological_order [rootA, rootB, rootC] rootsGraph ["B", "C", "A"]
    (by rfl) (by rfl)

theorem foldl_max_init (l : List Nat) : ∀ b : Nat, b ≤ l.foldl max b := by
  induction l with
  | nil => intro b; exact le_refl b
  | cons x xs ih =>
      intro b
      exact le_trans (le_max_left b x) (ih (max b x))

theorem le_foldl_max (l : List Nat) : ∀ (b a : Nat), a ∈ l → a ≤ l.foldl max b := by
  induction l with
  | nil =>
      intro b a ha
      simp at ha
  | cons x xs ih =>
      intro b a ha
      rcases List.mem_cons.1 ha with h1 | h1
      · subst h1
        exact le_trans (le_max_right b a) (foldl_max_init xs (max b a))
      · exact ih (max b x) a h1

theorem levelLookup_append_stable (acc : List (String × Nat)) (p : String × Nat) (x : String)
    (h : (acc.find? (fun q => q.1 == x)).isSome) :
    levelLookup (acc ++ [p]) x = levelLookup acc x := by
  unfold levelLookup
  rw [List.find?_append]
  cases hf : acc.find? (fun q => q.1 == x) with
  | none => rw [hf] at h; simp at h
  | some q => simp

theorem find?_append_isSome_left (acc : List (String × Nat)) (p : String × Nat) (x : String)
    (h : (acc.find? (fun q => q.1 == x)).isSome) :
    ((acc ++ [p]).find? (fun q => q.1 == x)).isSome := by
  rw [List.find?_append]
  cases hf : acc.find? (fun q => q.1 == x) with
  | none => rw [hf] at h; simp at h
  | some q => simp

theorem assignLevels_lookup_stable {α : Type} (g : Graph α) :
    ∀ (ns : List String) (acc : List (String × Nat)) (x : String),
      (acc.find? (fun q => q.1 == x)).isSome →
      levelLookup (assignLevels g ns acc) x = levelLookup acc x := by
  intro ns
  induction ns with
  | nil =>
      intro acc x _
      rfl
  | cons n ns ih =>
      intro acc x hx
      simp only [assignLevels]
      rw [ih _ x (find?_append_isSome_left acc _ x hx)]
      exact levelLookup_append_stable acc _ x hx

theorem assignLevels_edge_lt {α : Type} (g : Graph α) :
    ∀ (ns : List String) (acc : List (String × Nat)) (l₁ : List String) (c : String)
      (l₂ : List String), ns = l₁ ++ c :: l₂ →
      (∀ y ∈ ns, (acc.find? (fun q => q.1 == y)).isSome = false) →
      ns.Nodup →
      ∀ p ∈ depsOf g c, (p ∈ l₁ ∨ (acc.find? (fun q => q.1 == p)).isSome) →
      levelLookup (assignLevels g ns acc) p < levelLookup (assignLevels g ns acc) c := by
  intro ns
  induction ns with
  | nil =>
      intro acc l₁ c l₂ hsplit
      exact absurd hsplit (by simp)
  | cons n ns ih =>
      intro acc l₁ c l₂ hsplit hfresh hnd p hp hporig
      rcases List.cons_eq_append_iff.1 hsplit with ⟨hl1, hl2⟩ | ⟨a', ha', hb'⟩
      · -- l₁ = [], c = n
        have hcn : c = n := (List.cons.inj hl2).1
        subst hcn
        have hpacc : (acc.find? (fun q => q.1 == p)).isSome := by
          rcases hporig with h1 | h1
          · rw [hl1] at h1
            simp at h1
          · exact h1
        simp only [assignLevels]
        have hdepsne : ¬ (depsOf g c).isEmpty := by
          intro hh
          rw [List.isEmpty_iff] at hh
          rw [hh] at hp
          simp at hp
        rw [if_neg hdepsne]
        have hcfresh : (acc.find? (fun q => q.1 == c)).isSome = false :=
          hfresh c (List.mem_cons_self _ _)
        have hlty : levelLookup (acc ++ [(c, ((depsOf g c).map (levelLookup acc)).foldl max 0 + 1)]) c =
            ((depsOf g c).map (levelLookup acc)).foldl max 0 + 1 := by
          unfold levelLookup
          rw [List.find?_append]
          cases hf : acc.find? (fun q => q.1 == c) with
          | none => simp [List.find?]
          | some q => rw [hf] at hcfresh; simp at hcfresh
        have hstable_c : levelLookup (assignLevels g ns
            (acc ++ [(c, ((depsOf g c).map (levelLookup acc)).foldl max 0 + 1)])) c =
            ((depsOf g c).map (levelLookup acc)).foldl max 0 + 1 := by
          rw [assignLevels_lookup_stable g ns _ c (by
            rw [List.find?_append]
            cases hf : acc.find? (fun q => q.1 == c) with
            | none => simp [List.find?]
            | some q => rw [hf] at hcfresh; simp at hcfresh)]
          exact hlty
        have hstable_p : levelLookup (assignLevels g ns
            (acc ++ [(c, ((depsOf g c).map (levelLookup acc)).foldl max 0 + 1)])) p =
            levelLookup acc p := by
          rw [assignLevels_lookup_stable g ns _ p (find?_append_isSome_left acc _ p hpacc)]
          exact levelLookup_append_stable acc _ p hpacc
        rw [hstable_c, hstable_p]
        have hmem : levelLookup acc p ∈ (depsOf g c).map (levelLookup acc) :=
          List.mem_map_of_mem _ hp
        have := le_foldl_max _ 0 _ hmem
        omega
      · -- l₁ = n :: a', ns = a' ++ c :: l₂
        simp only [assignLevels]
        have hcn : c ≠ n := by
          intro hh
          have hcmem : c ∈ ns := by
            rw [hb']
            exact List.mem_append_right _ (List.mem_cons_self _ _)
          rw [hh] at hcmem
          exact (List.nodup_cons.1 hnd).1 hcmem
        refine ih _ a' c l₂ hb' ?_ (List.nodup_cons.1 hnd).2 p hp ?_
        · intro y hy
          rw [List.find?_append]
          have h1 : (acc.find? (fun q => q.1 == y)).isSome = false :=
            hfresh y (List.mem_cons_of_mem _ hy)
          have h2 : y ≠ n := by
            intro hh
            rw [hh] at hy
            exact (List.nodup_cons.1 hnd).1 hy
          cases hf : acc.find? (fun q => q.1 == y) with
          | some q => rw [hf] at h1; simp at h1
          | none =>
              have hb : (n == y) = false := by
                simp only [beq_eq_false_iff_ne, ne_eq]
                intro hh
                exact h2 hh.symm
              simp [List.find?, hb]
        · rcases hporig with h1 | h1
          · rw [ha'] at h1
            rcases List.mem_cons.1 h1 with h2 | h2
            · right
              subst h2
              rw [List.find?_append]
              cases hf : acc.find? (fun q => q.1 == p) with
              | some q => simp
              | none => simp [List.find?]
            · exact Or.inl h2
          · exact Or.inr (find?_append_isSome_left acc _ p h1)

theorem runLevel_runs_ids {α : Type} (g : Graph α) (durOf : String → Nat → Nat) :
    ∀ (ns : List String) (arts : Artifacts α) (clock : Nat) (ab : Option String),
      (runLevel g durOf ns arts clock ab).runs.map (fun nr => nr.id) = ns := by
  intro ns
  induction ns with
  | nil =>
      intro arts clock ab
      rfl
  | cons n ns ih =>
      intro arts clock ab
      simp only [runLevel]
      simp only [List.map_cons]
      rw [ih]

theorem runLevel_run_mem {α : Type} {g : Graph α} {durOf : String → Nat → Nat}
    {ns : List String} {arts : Artifacts α} {clock : Nat} {ab : Option String}
    {nr : NodeRun α} (hnr : nr ∈ (runLevel g durOf ns arts clock ab).runs) :
    nr.id ∈ ns := by
  rw [← runLevel_runs_ids g durOf ns arts clock ab]
  exact List.mem_map_of_mem _ hnr

theorem execLevels_runs_level_ge {α : Type} (g : Graph α) (durOf : String → Nat → Nat)
    (levels : List (String × Nat)) (sorted : List String) :
    ∀ (fuel l : Nat) (arts : Artifacts α) (clock : Nat),
      ∀ nr ∈ (execLevels g durOf levels sorted l fuel arts clock).runs,
        l ≤ levelLookup levels nr.id ∧ nr.id ∈ sorted := by
  intro fuel
  induction fuel with
  | zero =>
      intro l arts clock nr hnr
      simp [execLevels] at hnr
  | succ f ih =>
      intro l arts clock nr hnr
      simp only [execLevels] at hnr
      cases hab : (runLevel g durOf (sorted.filter (fun n => levelLookup levels n == l))
          arts clock none).aborted with
      | some a =>
          rw [hab] at hnr
          dsimp only at hnr
          have hid := runLevel_run_mem hnr
          have := List.mem_filter.1 hid
          exact ⟨by have := this.2; simp at this; omega, this.1⟩
      | none =>
          rw [hab] at hnr
          dsimp only at hnr
          rcases List.mem_append.1 hnr with h1 | h1
          · have hid := runLevel_run_mem h1
            have := List.mem_filter.1 hid
            exact ⟨by have := this.2; simp at this; omega, this.1⟩
          · have := ih (l + 1) _ _ nr h1
            exact ⟨by omega, this.2⟩

theorem execLevels_runs_split {α : Type} (g : Graph α) (durOf : String → Nat → Nat)
    (levels : List (String × Nat)) (sorted : List String) :
    ∀ (fuel l L : Nat) (arts : Artifacts α) (clock : Nat), l ≤ L →
      ∃ A B, (execLevels g durOf levels sorted l fuel arts clock).runs = A ++ B ∧
        (∀ nr ∈ A, levelLookup levels nr.id < L) ∧
        (∀ nr ∈ B, L ≤ levelLookup levels nr.id) := by
  intro fuel
  induction fuel with
  | zero =>
      intro l L arts clock _
      exact ⟨[], [], rfl, by simp, by simp⟩
  | succ f ih =>
      intro l L arts clock hlL
      by_cases hEq : l = L
      · subst hEq
        refine ⟨[], (execLevels g durOf levels sorted l (f + 1) arts clock).runs, rfl,
          by simp, ?_⟩
        intro nr hnr
        exact (execLevels_runs_level_ge g durOf levels sorted (f + 1) l arts clock nr hnr).1
      · have hlt : l < L := lt_of_le_of_ne hlL hEq
        simp only [execLevels]
        cases hab : (runLevel g durOf (sorted.filter (fun n => levelLookup levels n == l))
            arts clock none).aborted with
        | some a =>
            refine ⟨(runLevel g durOf (sorted.filter (fun n => levelLookup levels n == l))
              arts clock none).runs, [], by simp, ?_, by simp⟩
            intro nr hnr
            have hid := runLevel_run_mem hnr
            have hflt := (List.mem_filter.1 hid).2
            simp at hflt
            omega
        | none =>
            obtain ⟨A', B', hAB, hA', hB'⟩ := ih (l + 1) L
              (runLevel g durOf (sorted.filter (fun n => levelLookup levels n == l))
                arts clock none).arts
              (runLevel g durOf (sorted.filter (fun n => levelLookup levels n == l))
                arts clock none).clock (by omega)
            refine ⟨(runLevel g durOf (sorted.filter (fun n => levelLookup levels n == l))
              arts clock none).runs ++ A', B', ?_, ?_, hB'⟩
            · dsimp only
              rw [hAB, List.append_assoc]
            · intro nr hnr
              rcases List.mem_append.1 hnr with h1 | h1
              · have hid := runLevel_run_mem h1
                have hflt := (List.mem_filter.1 hid).2
                simp at hflt
                omega
              · exact hA' nr h1

theorem eventsBefore_append (trA trB : List (String × REvent)) (p c : String)
    (hA : ∀ ev ∈ trA, ev.1 ≠ c) (hB : ∀ ev ∈ trB, ev.1 ≠ p) :
    eventsBefore (trA ++ trB) p c := by
  intro i j hi hj hpi hcj
  have hiA : i < trA.length := by
    by_contra hge
    push_neg at hge
    have hlt : i - trA.length < trB.length := by
      rw [List.length_append] at hi
      omega
    have hget : (trA ++ trB).get ⟨i, hi⟩ = trB.get ⟨i - trA.length, hlt⟩ := by
      rw [List.get_eq_getElem, List.get_eq_getElem]
      exact List.getElem_append_right hge
    have hmem : (trA ++ trB).get ⟨i, hi⟩ ∈ trB := by
      rw [hget]
      exact List.get_mem _ _ _
    exact hB _ hmem hpi
  have hjB : trA.length ≤ j := by
    by_contra hlt
    push_neg at hlt
    have hget : (trA ++ trB).get ⟨j, hj⟩ = trA.get ⟨j, hlt⟩ := List.get_append j hlt
    have hmem : (trA ++ trB).get ⟨j, hj⟩ ∈ trA := by
      rw [hget]
      exact List.get_mem _ _ _
    exact hA _ hmem hcj
  omega

theorem mem_trace_part {α : Type} (A : List (NodeRun α)) (ev : String × REvent)
    (h : ev ∈ (A.map (fun nr => nr.res.events.map (fun e => (nr.id, e)))).flatten) :
    ∃ nr ∈ A, ev.1 = nr.id := by
  rw [List.mem_flatten] at h
  obtain ⟨l, hl, hev⟩ := h
  rw [List.mem_map] at hl
  obtain ⟨nr, hnr, hlnr⟩ := hl
  subst hlnr
  rw [List.mem_map] at hev
  obtain ⟨e, _, hevnr⟩ := hev
  exact ⟨nr, hnr, by rw [← hevnr]⟩

/-- C1: for every edge p -> c of the built graph, the driver assigns c a
strictly larger level than p (c's level is one more than the maximum of its
dependencies' levels), and because the driver awaits every launch of a level
before entering the next one, every event of p (every attempt start and end,
including all retries) occurs in the run's event stream strictly before
every event of c: no child action is invoked while a parent is still running
or retrying. -/
theorem C1_level_barrier {α : Type} (ts : List (Task α)) (g : Graph α)
    (sorted : List String) (cfg : SequenceConfig) (durOf : String → Nat → Nat)
    (clock : Nat) (r : DriveResult α)
    (hg : buildGraph ts = .ok g) (hs : topologicalSortWithPriority g = .ok sorted)
    (hr : runSequence cfg ts durOf clock = .ok r)
    (p c : String) (hcid : c ∈ nodeIds g) (hedge : p ∈ depsOf g c) :
    levelLookup r.levels p < levelLookup r.levels c ∧
    eventsBefore (runTrace r) p c := by
  obtain ⟨g', sorted', hg', hs', hr'⟩ := runSequence_ok_inv hr
  rw [hg] at hg'
  have hgg : g' = g := by
    injection hg' with h1
    exact h1.symm
  rw [hgg] at hs' hr'
  rw [hs] at hs'
  have hss : sorted' = sorted := by
    injection hs' with h1
    exact h1.symm
  rw [hss] at hr'
  have hwf := buildGraph_wf hg
  obtain ⟨hnd, hmem, hresp⟩ := topo_ok_props hwf hs
  have hcs : c ∈ sorted := (hmem c).2 hcid
  obtain ⟨l₁, l₂, hsplit⟩ := List.append_of_mem hcs
  have hpl₁ : p ∈ l₁ := hresp l₁ c l₂ hsplit p hedge
  have hL : levelLookup (assignLevels g sorted []) p <
      levelLookup (assignLevels g sorted []) c := by
    refine assignLevels_edge_lt g sorted [] l₁ c l₂ hsplit ?_ hnd p hedge (Or.inl hpl₁)
    intro y _
    rfl
  have hlevels : r.levels = assignLevels g sorted [] := by
    rw [hr']
    rfl
  constructor
  · rw [hlevels]
    exact hL
  · have hrruns : r.runs = (execLevels g durOf (assignLevels g sorted []) sorted 0
        ((((assignLevels g sorted []).map (fun q => q.2)).foldl max 0) + 1) [] clock).runs := by
      rw [hr']
      rfl
    obtain ⟨A, B, hAB, hA, hB⟩ := execLevels_runs_split g durOf (assignLevels g sorted [])
      sorted ((((assignLevels g sorted []).map (fun q => q.2)).foldl max 0) + 1) 0
      (levelLookup (assignLevels g sorted []) c) [] clock (Nat.zero_le _)
    rw [← hrruns] at hAB
    have htr : runTrace r =
        (A.map (fun nr => nr.res.events.map (fun e => (nr.id, e)))).flatten ++
        (B.map (fun nr => nr.res.events.map (fun e => (nr.id, e)))).flatten := by
      unfold runTrace
      rw [hAB, List.map_append, List.flatten_append]
    rw [htr]
    apply eventsBefore_append
    · intro ev hev
      obtain ⟨nr, hnr, hevid⟩ := mem_trace_part A ev hev
      intro hevc
      have := hA nr hnr
      rw [← hevid, hevc] at this
      omega
    · intro ev hev
      obtain ⟨nr, hnr, hevid⟩ := mem_trace_part B ev hev
      intro hevp
      have := hB nr hnr
      rw [← hevid, hevp] at this
      omega

/-- Witness for C1 at the three-task chain A → B → C, edge A → B. -/
theorem C1_level_barrier_witness :
    levelLookup (executeTasksWithConcurrencyLimit chainGraph ["A", "B", "C"] 2 unitDur 0).levels "A"
      < levelLookup
          (executeTasksWithConcurrencyLimit chainGraph ["A", "B", "C"] 2 unitDur 0).levels "B" ∧
    eventsBefore
      (runTrace (executeTasksWithConcurrencyLimit chainGraph ["A", "B", "C"] 2 unitDur 0))
      "A" "B" :=
  C1_level_barrier [chainA, chainB, chainC] chainGraph ["A", "B", "C"] {} unitDur 0 _
    rfl rfl (runSequence_eq_ok rfl rfl) "A" "B" (by decide) (by decide)

theorem artLookup_cons_ne {α : Type} (arts : Artifacts α) (y x : String) (v : Option α)
    (h : y ≠ x) : artLookup ((y, v) :: arts) x = artLookup arts x := by
  unfold artLookup
  rw [List.find?_cons_of_neg _ (by simp [h])]

theorem artLookup_congr {α : Type} {arts₁ arts₂ : Artifacts α} {x : String}
    (h : arts₁.find? (fun p => p.1 == x) = arts₂.find? (fun p => p.1 == x)) :
    artLookup arts₁ x = artLookup arts₂ x := by
  unfold artLookup
  rw [h]

theorem runLevel_mem_run {α : Type} (g : Graph α) (durOf : String → Nat → Nat)
    (ns : List String) (arts : Artifacts α) (clock : Nat) (ab : Option String)
    (x : String) (hx : x ∈ ns) :
    ∃ nr ∈ (runLevel g durOf ns arts clock ab).runs, nr.id = x := by
  rw [← runLevel_runs_ids g durOf ns arts clock ab] at hx
  obtain ⟨nr, hnr, hid⟩ := List.mem_map.1 hx
  exact ⟨nr, hnr, hid⟩

theorem runLevel_find?_stable {α : Type} (g : Graph α) (durOf : String → Nat → Nat) :
    ∀ (ns : List String) (arts : Artifacts α) (clock : Nat) (ab : Option String) (x : String),
      ¬ x ∈ ns →
      (runLevel g durOf ns arts clock ab).arts.find? (fun p => p.1 == x) =
        arts.find? (fun p => p.1 == x) := by
  intro ns
  induction ns with
  | nil =>
      intro arts clock ab x _
      rfl
  | cons n ns ih =>
      intro arts clock ab x hx
      have hxn : x ≠ n := fun h => hx (h ▸ List.mem_cons_self _ _)
      have hxs : ¬ x ∈ ns := fun h => hx (List.mem_cons_of_mem _ h)
      simp only [runLevel]
      rw [ih _ _ _ x hxs]
      cases hv : (executeTaskWithRetries (taskOf g n) ((depsOf g n).map (artLookup arts))
          (durOf n) clock).value with
      | ok v =>
          exact List.find?_cons_of_neg _ (by simp [Ne.symm hxn])
      | error e =>
          cases ho : onErrorOf g n with
          | none =>
              exact List.find?_cons_of_neg _ (by simp [Ne.symm hxn])
          | some oe =>
              cases oe with
              | abort => rfl
              | cont =>
                  exact List.find?_cons_of_neg _ (by simp [Ne.symm hxn])

theorem runLevel_args {α : Type} (g : Graph α) (durOf : String → Nat → Nat)
    (S : List String) :
    ∀ (ns : List String) (arts : Artifacts α) (clock : Nat) (ab : Option String),
      (∀ n ∈ ns, n ∈ S) →
      (∀ n ∈ ns, ∀ d ∈ depsOf g n, ¬ d ∈ S) →
      ∀ nr ∈ (runLevel g durOf ns arts clock ab).runs,
        nr.args = (depsOf g nr.id).map (artLookup arts) := by
  intro ns
  induction ns with
  | nil =>
      intro arts clock ab _ _ nr hnr
      simp [runLevel] at hnr
  | cons n ns ih =>
      intro arts clock ab hsub hdep nr hnr
      simp only [runLevel] at hnr
      rcases List.mem_cons.1 hnr with h1 | h1
      · subst h1
        rfl
      · have hargs := ih _ _ _ (fun m hm => hsub m (List.mem_cons_of_mem _ hm))
          (fun m hm => hdep m (List.mem_cons_of_mem _ hm)) nr h1
        rw [hargs]
        refine List.map_congr_left ?_
        intro d hd
        have hid : nr.id ∈ ns := runLevel_run_mem h1
        have hdS : ¬ d ∈ S := hdep nr.id (List.mem_cons_of_mem _ hid) d hd
        have hnS : n ∈ S := hsub n (List.mem_cons_self _ _)
        have hnd : n ≠ d := fun h => hdS (h ▸ hnS)
        cases hv : (executeTaskWithRetries (taskOf g n) ((depsOf g n).map (artLookup arts))
            (durOf n) clock).value with
        | ok v =>
            exact artLookup_cons_ne arts n d (some v) hnd
        | error e =>
            cases ho : onErrorOf g n with
            | none =>
                exact artLookup_cons_ne arts n d none hnd
            | some oe =>
                cases oe with
                | abort => rfl
                | cont =>
                    exact artLookup_cons_ne arts n d none hnd

theorem runLevel_art_run {α : Type} (g : Graph α) (durOf : String → Nat → Nat) :
    ∀ (ns : List String) (arts : Artifacts α) (clock : Nat) (ab : Option String),
      ns.Nodup →
      (∀ n ∈ ns, arts.find? (fun p => p.1 == n) = none) →
      ∀ nr ∈ (runLevel g durOf ns arts clock ab).runs,
        artLookup (runLevel g durOf ns arts clock ab).arts nr.id = nr.res.value.toOption := by
  intro ns
  induction ns with
  | nil =>
      intro arts clock ab _ _ nr hnr
      simp [runLevel] at hnr
  | cons n ns ih =>
      intro arts clock ab hnd hfresh nr hnr
      have hnot : ¬ n ∈ ns := (List.nodup_cons.1 hnd).1
      simp only [runLevel] at hnr ⊢
      rcases List.mem_cons.1 hnr with h1 | h1
      · subst h1
        dsimp only
        rw [artLookup_congr (runLevel_find?_stable g durOf ns _ _ _ n hnot)]
        cases hv : (executeTaskWithRetries (taskOf g n) ((depsOf g n).map (artLookup arts))
            (durOf n) clock).value with
        | ok v =>
            unfold artLookup
            rw [List.find?_cons_of_pos _ (by simp)]
            rfl
        | error e =>
            cases ho : onErrorOf g n with
            | none =>
                unfold artLookup
                rw [List.find?_cons_of_pos _ (by simp)]
                rfl
            | some oe =>
                cases oe with
                | abort =>
                    unfold artLookup
                    rw [hfresh n (List.mem_cons_self _ _)]
                    rfl
                | cont =>
                    unfold artLookup
                    rw [List.find?_cons_of_pos _ (by simp)]
                    rfl
      · refine ih _ _ _ (List.nodup_cons.1 hnd).2 ?_ nr h1
        intro m hm
        have hmn : n ≠ m := fun h => (List.nodup_cons.1 hnd).1 (h ▸ hm)
        cases hv : (executeTaskWithRetries (taskOf g n) ((depsOf g n).map (artLookup arts))
            (durOf n) clock).value with
        | ok v =>
            rw [List.find?_cons_of_neg _ (by simp [hmn])]
            exact hfresh m (List.mem_cons_of_mem _ hm)
        | error e =>
            cases ho : onErrorOf g n with
            | none =>
                rw [List.find?_cons_of_neg _ (by simp [hmn])]
                exact hfresh m (List.mem_cons_of_mem _ hm)
            | some oe =>
                cases oe with
                | abort => exact hfresh m (List.mem_cons_of_mem _ hm)
                | cont =>
                    rw [List.find?_cons_of_neg _ (by simp [hmn])]
                    exact hfresh m (List.mem_cons_of_mem _ hm)

theorem runLevel_abort {α : Type} (g : Graph α) (durOf : String → Nat → Nat) :
    ∀ (ns : List String) (arts : Artifacts α) (clock : Nat) (ab : Option String) (a : String),
      (runLevel g durOf ns arts clock ab).aborted = some a →
      ab = some a ∨ ∃ nr ∈ (runLevel g durOf ns arts clock ab).runs,
        nr.id = a ∧ (∃ e, nr.res.value = Except.error e) ∧
        onErrorOf g a = some OnError.abort := by
  intro ns
  induction ns with
  | nil =>
      intro arts clock ab a h
      exact Or.inl h
  | cons n ns ih =>
      intro arts clock ab a h
      simp only [runLevel] at h ⊢
      rcases ih _ _ _ a h with h1 | ⟨nr, hnr, hrest⟩
      · cases hv : (executeTaskWithRetries (taskOf g n) ((depsOf g n).map (artLookup arts))
            (durOf n) clock).value with
        | ok v =>
            rw [hv] at h1
            exact Or.inl h1
        | error e =>
            cases ho : onErrorOf g n with
            | none =>
                rw [hv, ho] at h1
                exact Or.inl h1
            | some oe =>
                cases oe with
                | abort =>
                    rw [hv, ho] at h1
                    cases ab with
                    | some b => exact Or.inl h1
                    | none =>
                        have h1' : some n = some a := h1
                        have hna : n = a := Option.some.inj h1'
                        subst hna
                        refine Or.inr ⟨_, List.mem_cons_self _ _, rfl, ⟨e, hv⟩, ho⟩
                | cont =>
                    rw [hv, ho] at h1
                    exact Or.inl h1
      · exact Or.inr ⟨nr, List.mem_cons_of_mem _ hnr, hrest⟩

theorem mem_level_filter {levels : List (String × Nat)} {l : Nat} {sorted : List String}
    {x : String} (h : x ∈ sorted.filter (fun n => levelLookup levels n == l)) :
    x ∈ sorted ∧ levelLookup levels x = l := by
  have h' := List.mem_filter.1 h
  exact ⟨h'.1, by simpa using h'.2⟩

theorem execLevels_find?_stable {α : Type} (g : Graph α) (durOf : String → Nat → Nat)
    (levels : List (String × Nat)) (sorted : List String) :
    ∀ (fuel l : Nat) (arts : Artifacts α) (clock : Nat) (x : String),
      (∀ nr ∈ (execLevels g durOf levels sorted l fuel arts clock).runs, nr.id ≠ x) →
      (execLevels g durOf levels sorted l fuel arts clock).arts.find? (fun p => p.1 == x) =
        arts.find? (fun p => p.1 == x) := by
  intro fuel
  induction fuel with
  | zero =>
      intro l arts clock x _
      rfl
  | succ f ih =>
      intro l arts clock x hx
      simp only [execLevels] at hx ⊢
      cases hab : (runLevel g durOf (sorted.filter (fun n => levelLookup levels n == l))
          arts clock none).aborted with
      | some a =>
          rw [hab] at hx
          dsimp only at hx ⊢
          refine runLevel_find?_stable g durOf _ _ _ _ x ?_
          intro hmem
          obtain ⟨nr, hnr, hid⟩ := runLevel_mem_run g durOf _ arts clock none x hmem
          exact hx nr hnr hid
      | none =>
          rw [hab] at hx
          dsimp only at hx ⊢
          have hxrest : ∀ nr ∈ (execLevels g durOf levels sorted (l + 1) f
              (runLevel g durOf (sorted.filter (fun n => levelLookup levels n == l))
                arts clock none).arts
              (runLevel g durOf (sorted.filter (fun n => levelLookup levels n == l))
                arts clock none).clock).runs, nr.id ≠ x := by
            intro nr hnr
            exact hx nr (List.mem_append_right _ hnr)
          rw [ih (l + 1) _ _ x hxrest]
          refine runLevel_find?_stable g durOf _ _ _ _ x ?_
          intro hmem
          obtain ⟨nr, hnr, hid⟩ := runLevel_mem_run g durOf _ arts clock none x hmem
          exact hx nr (List.mem_append_left _ hnr) hid

theorem execLevels_find?_stable_lt {α : Type} (g : Graph α) (durOf : String → Nat → Nat)
    (levels : List (String × Nat)) (sorted : List String)
    (fuel l : Nat) (arts : Artifacts α) (clock : Nat) (x : String)
    (hlt : levelLookup levels x < l) :
    (execLevels g durOf levels sorted l fuel arts clock).arts.find? (fun p => p.1 == x) =
      arts.find? (fun p => p.1 == x) := by
  refine execLevels_find?_stable g durOf levels sorted fuel l arts clock x ?_
  intro nr hnr hid
  have hge := (execLevels_runs_level_ge g durOf levels sorted fuel l arts clock nr hnr).1
  rw [hid] at hge
  omega

theorem execLevels_master {α : Type} (g : Graph α) (durOf : String → Nat → Nat)
    (levels : List (String × Nat)) (sorted : List String)
    (hnds : sorted.Nodup)
    (hedge : ∀ c ∈ sorted, ∀ d ∈ depsOf g c, levelLookup levels d < levelLookup levels c) :
    ∀ (fuel l : Nat) (arts : Artifacts α) (clock : Nat),
      (∀ x ∈ sorted, l ≤ levelLookup levels x → arts.find? (fun p => p.1 == x) = none) →
      (∀ nr ∈ (execLevels g durOf levels sorted l fuel arts clock).runs,
        nr.args = (depsOf g nr.id).map
          (artLookup (execLevels g durOf levels sorted l fuel arts clock).arts)) ∧
      (∀ nr ∈ (execLevels g durOf levels sorted l fuel arts clock).runs,
        artLookup (execLevels g durOf levels sorted l fuel arts clock).arts nr.id =
          nr.res.value.toOption) := by
  intro fuel
  induction fuel with
  | zero =>
      intro l arts clock _
      constructor <;> · intro nr hnr; simp [execLevels] at hnr
  | succ f ih =>
      intro l arts clock hfresh
      have hdepns : ∀ n ∈ sorted.filter (fun n => levelLookup levels n == l),
          ∀ d ∈ depsOf g n, ¬ d ∈ sorted.filter (fun n => levelLookup levels n == l) := by
        intro n hn d hd hdns
        have hn' := mem_level_filter hn
        have hd' := mem_level_filter hdns
        have h1 := hedge n hn'.1 d hd
        omega
      have hndns : (sorted.filter (fun n => levelLookup levels n == l)).Nodup :=
        hnds.filter _
      have hfreshns : ∀ n ∈ sorted.filter (fun n => levelLookup levels n == l),
          arts.find? (fun p => p.1 == n) = none := by
        intro n hn
        have hn' := mem_level_filter hn
        exact hfresh n hn'.1 (by omega)
      simp only [execLevels]
      cases hab : (runLevel g durOf (sorted.filter (fun n => levelLookup levels n == l))
          arts clock none).aborted with
      | some a =>
          dsimp only
          constructor
          · intro nr hnr
            have h2 := runLevel_args g durOf
              (sorted.filter (fun n => levelLookup levels n == l))
              (sorted.filter (fun n => levelLookup levels n == l)) arts clock none
              (fun n hn => hn) hdepns nr hnr
            rw [h2]
            refine List.map_congr_left ?_
            intro d hd
            have hidns := runLevel_run_mem hnr
            have hidlvl := mem_level_filter hidns
            have hdl : levelLookup levels d < l := by
              have := hedge nr.id hidlvl.1 d hd
              omega
            have hdns : ¬ d ∈ sorted.filter (fun n => levelLookup levels n == l) := by
              intro h
              have := (mem_level_filter h).2
              omega
            exact (artLookup_congr
              (runLevel_find?_stable g durOf _ arts clock none d hdns)).symm
          · intro nr hnr
            exact runLevel_art_run g durOf _ arts clock none hndns hfreshns nr hnr
      | none =>
          dsimp only
          have hfresh' : ∀ x ∈ sorted, l + 1 ≤ levelLookup levels x →
              (runLevel g durOf (sorted.filter (fun n => levelLookup levels n == l))
                arts clock none).arts.find? (fun p => p.1 == x) = none := by
            intro x hxs hlx
            have hxns : ¬ x ∈ sorted.filter (fun n => levelLookup levels n == l) := by
              intro h
              have := (mem_level_filter h).2
              omega
            rw [runLevel_find?_stable g durOf _ arts clock none x hxns]
            exact hfresh x hxs (by omega)
          have IH := ih (l + 1)
            (runLevel g durOf (sorted.filter (fun n => levelLookup levels n == l))
              arts clock none).arts
            (runLevel g durOf (sorted.filter (fun n => levelLookup levels n == l))
              arts clock none).clock hfresh'
          constructor
          · intro nr hnr
            rcases List.mem_append.1 hnr with h1 | h1
            · have h2 := runLevel_args g durOf
                (sorted.filter (fun n => levelLookup levels n == l))
                (sorted.filter (fun n => levelLookup levels n == l)) arts clock none
                (fun n hn => hn) hdepns nr h1
              rw [h2]
              refine List.map_congr_left ?_
              intro d hd
              have hidns := runLevel_run_mem h1
              have hidlvl := mem_level_filter hidns
              have hdl : levelLookup levels d < l := by
                have := hedge nr.id hidlvl.1 d hd
                omega
              have hdns : ¬ d ∈ sorted.filter (fun n => levelLookup levels n == l) := by
                intro h
                have := (mem_level_filter h).2
                omega
              have hst1 := execLevels_find?_stable_lt g durOf levels sorted f (l + 1)
                (runLevel g durOf (sorted.filter (fun n => levelLookup levels n == l))
                  arts clock none).arts
                (runLevel g durOf (sorted.filter (fun n => levelLookup levels n == l))
                  arts clock none).clock d (by omega)
              have hst2 := runLevel_find?_stable g durOf
                (sorted.filter (fun n => levelLookup levels n == l)) arts clock none d hdns
              exact (artLookup_congr (hst1.trans hst2)).symm
            · exact IH.1 nr h1
          · intro nr hnr
            rcases List.mem_append.1 hnr with h1 | h1
            · have hidns := runLevel_run_mem h1
              have hidlvl := mem_level_filter hidns
              have hst1 := execLevels_find?_stable_lt g durOf levels sorted f (l + 1)
                (runLevel g durOf (sorted.filter (fun n => levelLookup levels n == l))
                  arts clock none).arts
                (runLevel g durOf (sorted.filter (fun n => levelLookup levels n == l))
                  arts clock none).clock nr.id (by omega)
              rw [artLookup_congr hst1]
              exact runLevel_art_run g durOf _ arts clock none hndns hfreshns nr h1
            · exact IH.2 nr h1

theorem execLevels_aborted {α : Type} (g : Graph α) (durOf : String → Nat → Nat)
    (levels : List (String × Nat)) (sorted : List String) :
    ∀ (fuel l : Nat) (arts : Artifacts α) (clock : Nat) (a : String),
      (execLevels g durOf levels sorted l fuel arts clock).aborted = some a →
      ∃ nr ∈ (execLevels g durOf levels sorted l fuel arts clock).runs,
        nr.id = a ∧ (∃ e, nr.res.value = Except.error e) ∧
        onErrorOf g a = some OnError.abort ∧
        ∀ nr' ∈ (execLevels g durOf levels sorted l fuel arts clock).runs,
          levelLookup levels nr'.id ≤ levelLookup levels a := by
  intro fuel
  induction fuel with
  | zero =>
      intro l arts clock a h
      simp [execLevels] at h
  | succ f ih =>
      intro l arts clock a h
      simp only [execLevels] at h ⊢
      cases hab : (runLevel g durOf (sorted.filter (fun n => levelLookup levels n == l))
          arts clock none).aborted with
      | some a' =>
          rw [hab] at h
          dsimp only at h ⊢
          have haa : a' = a := Option.some.inj h
          subst haa
          rcases runLevel_abort g durOf _ arts clock none a' hab with h1 | ⟨nr, hnr, hrest⟩
          · cases h1
          · refine ⟨nr, hnr, hrest.1, hrest.2.1, hrest.2.2, ?_⟩
            intro nr' hnr'
            have hl' := (mem_level_filter (runLevel_run_mem hnr')).2
            have hla : levelLookup levels a' = l := by
              have := (mem_level_filter (runLevel_run_mem hnr)).2
              rw [hrest.1] at this
              exact this
            omega
      | none =>
          rw [hab] at h
          dsimp only at h ⊢
          obtain ⟨nr, hnr, hid, herr, hoe, hbound⟩ := ih (l + 1) _ _ a h
          refine ⟨nr, List.mem_append_right _ hnr, hid, herr, hoe, ?_⟩
          intro nr' hnr'
          rcases List.mem_append.1 hnr' with h1 | h1
          · have hla : l + 1 ≤ levelLookup levels a := by
              have hge := (execLevels_runs_level_ge g durOf levels sorted f (l + 1)
                _ _ nr hnr).1
              rw [hid] at hge
              exact hge
            have hl' := (mem_level_filter (runLevel_run_mem h1)).2
            omega
          · exact hbound nr' h1

theorem execLevels_complete {α : Type} (g : Graph α) (durOf : String → Nat → Nat)
    (levels : List (String × Nat)) (sorted : List String) :
    ∀ (fuel l : Nat) (arts : Artifacts α) (clock : Nat),
      (execLevels g durOf levels sorted l fuel arts clock).aborted = none →
      ∀ x ∈ sorted, l ≤ levelLookup levels x → levelLookup levels x < l + fuel →
      ∃ nr ∈ (execLevels g durOf levels sorted l fuel arts clock).runs, nr.id = x := by
  intro fuel
  induction fuel with
  | zero =>
      intro l arts clock _ x _ hge hlt
      omega
  | succ f ih =>
      intro l arts clock hnone x hxs hge hlt
      simp only [execLevels] at hnone ⊢
      cases hab : (runLevel g durOf (sorted.filter (fun n => levelLookup levels n == l))
          arts clock none).aborted with
      | some a =>
          rw [hab] at hnone
          dsimp only at hnone
          cases hnone
      | none =>
          rw [hab] at hnone
          dsimp only at hnone ⊢
          by_cases hlx : levelLookup levels x = l
          · have hxns : x ∈ sorted.filter (fun n => levelLookup levels n == l) :=
              List.mem_filter.2 ⟨hxs, by simp [hlx]⟩
            obtain ⟨nr, hnr, hid⟩ := runLevel_mem_run g durOf _ arts clock none x hxns
            exact ⟨nr, List.mem_append_left _ hnr, hid⟩
          · obtain ⟨nr, hnr, hid⟩ := ih (l + 1) _ _ hnone x hxs (by omega) (by omega)
            exact ⟨nr, List.mem_append_right _ hnr, hid⟩

theorem levelLookup_le_max (levels : List (String × Nat)) (x : String) :
    levelLookup levels x ≤ (levels.map (fun q => q.2)).foldl max 0 := by
  unfold levelLookup
  cases hf : levels.find? (fun p => p.1 == x) with
  | none => simp
  | some q =>
      have hq : q ∈ levels := List.mem_of_find?_eq_some hf
      have hq2 : q.2 ∈ levels.map (fun q => q.2) := List.mem_map_of_mem _ hq
      have := le_foldl_max _ 0 _ hq2
      simpa using this

theorem sorted_edge_level {α : Type} {g : Graph α} {sorted : List String} (hwf : WF g)
    (hs : topologicalSortWithPriority g = .ok sorted) :
    ∀ c ∈ sorted, ∀ d ∈ depsOf g c,
      levelLookup (assignLevels g sorted []) d < levelLookup (assignLevels g sorted []) c := by
  obtain ⟨hnd, hmem, hresp⟩ := topo_ok_props hwf hs
  intro c hc d hd
  obtain ⟨l₁, l₂, hsplit⟩ := List.append_of_mem hc
  have hdl₁ : d ∈ l₁ := hresp l₁ c l₂ hsplit d hd
  refine assignLevels_edge_lt g sorted [] l₁ c l₂ hsplit ?_ hnd d hd (Or.inl hdl₁)
  intro y _
  rfl

theorem runSequence_master {α : Type} {cfg : SequenceConfig} {ts : List (Task α)}
    {durOf : String → Nat → Nat} {clock : Nat} {g : Graph α} {sorted : List String}
    {r : DriveResult α}
    (hg : buildGraph ts = .ok g) (hs : topologicalSortWithPriority g = .ok sorted)
    (hr : runSequence cfg ts durOf clock = .ok r) :
    (∀ nr ∈ r.runs, nr.args = (depsOf g nr.id).map (artLookup r.artifacts)) ∧
    (∀ nr ∈ r.runs, artLookup r.artifacts nr.id = nr.res.value.toOption) ∧
    (∀ x, artLookup r.artifacts x = runOutcome r.runs x) ∧
    (∀ a, r.aborted = some a → ∃ nr ∈ r.runs, nr.id = a ∧
        (∃ e, nr.res.value = Except.error e) ∧ onErrorOf g a = some OnError.abort ∧
        ∀ nr' ∈ r.runs, levelLookup r.levels nr'.id ≤ levelLookup r.levels a) ∧
    (r.aborted = none → ∀ x ∈ sorted, ∃ nr ∈ r.runs, nr.id = x) := by
  obtain ⟨g', sorted', hg', hs', hr'⟩ := runSequence_ok_inv hr
  rw [hg] at hg'
  have hgg : g' = g := by
    injection hg' with h1
    exact h1.symm
  rw [hgg] at hs' hr'
  rw [hs] at hs'
  have hss : sorted' = sorted := by
    injection hs' with h1
    exact h1.symm
  rw [hss] at hr'
  have hwf := buildGraph_wf hg
  obtain ⟨hnds, hmem, hresp⟩ := topo_ok_props hwf hs
  have hedge := sorted_edge_level hwf hs
  have hruns : r.runs = (execLevels g durOf (assignLevels g sorted []) sorted 0
      ((((assignLevels g sorted []).map (fun q => q.2)).foldl max 0) + 1) [] clock).runs := by
    rw [hr']
    rfl
  have harts : r.artifacts = (execLevels g durOf (assignLevels g sorted []) sorted 0
      ((((assignLevels g sorted []).map (fun q => q.2)).foldl max 0) + 1) [] clock).arts := by
    rw [hr']
    rfl
  have habort : r.aborted = (execLevels g durOf (assignLevels g sorted []) sorted 0
      ((((assignLevels g sorted []).map (fun q => q.2)).foldl max 0) + 1) [] clock).aborted := by
    rw [hr']
    rfl
  have hlev : r.levels = assignLevels g sorted [] := by
    rw [hr']
    rfl
  have hfresh0 : ∀ x ∈ sorted, 0 ≤ levelLookup (assignLevels g sorted []) x →
      ([] : Artifacts α).find? (fun p => p.1 == x) = none := fun x _ _ => rfl
  have hM := execLevels_master g durOf (assignLevels g sorted []) sorted hnds hedge
    ((((assignLevels g sorted []).map (fun q => q.2)).foldl max 0) + 1) 0 [] clock hfresh0
  have hA : ∀ nr ∈ r.runs, nr.args = (depsOf g nr.id).map (artLookup r.artifacts) := by
    intro nr hnr
    rw [hruns] at hnr
    rw [harts]
    exact hM.1 nr hnr
  have hB : ∀ nr ∈ r.runs, artLookup r.artifacts nr.id = nr.res.value.toOption := by
    intro nr hnr
    rw [hruns] at hnr
    rw [harts]
    exact hM.2 nr hnr
  refine ⟨hA, hB, ?_, ?_, ?_⟩
  · intro x
    cases hfind : r.runs.find? (fun nr => nr.id == x) with
    | some nr =>
        have hmemr : nr ∈ r.runs := List.mem_of_find?_eq_some hfind
        have hidb := List.find?_some hfind
        have hid : nr.id = x := by simpa using hidb
        subst hid
        rw [hB nr hmemr]
        unfold runOutcome
        rw [hfind]
        show nr.res.value.toOption =
          match nr.res.value with
          | Except.ok v => some v
          | Except.error _ => none
        cases nr.res.value <;> rfl
    | none =>
        have hnone : ∀ nr ∈ r.runs, nr.id ≠ x := by
          intro nr hnr h
          have h2 := List.find?_eq_none.1 hfind nr hnr
          simp [h] at h2
        have hst := execLevels_find?_stable g durOf (assignLevels g sorted []) sorted
          ((((assignLevels g sorted []).map (fun q => q.2)).foldl max 0) + 1) 0 [] clock x
          (by intro nr hnr; exact hnone nr (by rw [hruns]; exact hnr))
        have hfnone : r.artifacts.find? (fun p => p.1 == x) = none := by
          rw [harts, hst]
          rfl
        unfold artLookup runOutcome
        rw [hfnone, hfind]
        rfl
  · intro a ha
    rw [habort] at ha
    obtain ⟨nr, hnr, hid, herr, hoe, hbound⟩ := execLevels_aborted g durOf
      (assignLevels g sorted []) sorted _ 0 [] clock a ha
    refine ⟨nr, by rw [hruns]; exact hnr, hid, herr, hoe, ?_⟩
    intro nr' hnr'
    rw [hlev]
    refine hbound nr' ?_
    rw [hruns] at hnr'
    exact hnr'
  · intro h0 x hx
    rw [habort] at h0
    have hlt : levelLookup (assignLevels g sorted []) x <
        0 + ((((assignLevels g sorted []).map (fun q => q.2)).foldl max 0) + 1) := by
      have := levelLookup_le_max (assignLevels g sorted []) x
      omega
    obtain ⟨nr, hnr, hid⟩ := execLevels_complete g durOf (assignLevels g sorted []) sorted
      _ 0 [] clock h0 x hx (Nat.zero_le _) hlt
    exact ⟨nr, by rw [hruns]; exact hnr, hid⟩

/-- C2: the driver passes each task's parent artifacts to its action as
positional arguments in parent-declaration order: every launch's argument
list is exactly the node's dependency list (in declaration order) mapped
through the artifact slots, and each slot holds precisely the value the
owning task's own run produced; consequently the linear chain A, B, C runs
to success with artifacts A="a", B="ab", C="abc". -/
theorem C2_positional_args {α : Type} (ts : List (Task α)) (g : Graph α)
    (sorted : List String) (cfg : SequenceConfig) (durOf : String → Nat → Nat)
    (clock : Nat) (r : DriveResult α)
    (hg : buildGraph ts = .ok g) (hs : topologicalSortWithPriority g = .ok sorted)
    (hr : runSequence cfg ts durOf clock = .ok r) :
    (∀ nr ∈ r.runs, nr.args = (depsOf g nr.id).map (artLookup r.artifacts)) ∧
    (∀ x, artLookup r.artifacts x = runOutcome r.runs x) ∧
    (runSequence {} [chainA, chainB, chainC] unitDur 0).map
      (fun q => (artLookup q.artifacts "A", artLookup q.artifacts "B",
                 artLookup q.artifacts "C", q.aborted)) =
      .ok (some "a", some "ab", some "abc", none) := by
  obtain ⟨h1, h2, h3, h4, h5⟩ := runSequence_master hg hs hr
  exact ⟨h1, h3, rfl⟩

/-- Witness for C2 at the three-task chain. -/
theorem C2_positional_args_witness :
    (∀ nr ∈ (executeTasksWithConcurrencyLimit chainGraph ["A", "B", "C"] 2 unitDur 0).runs,
      nr.args = (depsOf chainGraph nr.id).map
        (artLookup
          (executeTasksWithConcurrencyLimit chainGraph ["A", "B", "C"] 2 unitDur 0).artifacts)) ∧
    (∀ x, artLookup
        (executeTasksWithConcurrencyLimit chainGraph ["A", "B", "C"] 2 unitDur 0).artifacts x =
      runOutcome (executeTasksWithConcurrencyLimit chainGraph ["A", "B", "C"] 2 unitDur 0).runs x) ∧
    (runSequence {} [chainA, chainB, chainC] unitDur 0).map
      (fun q => (artLookup q.artifacts "A", artLookup q.artifacts "B",
                 artLookup q.artifacts "C", q.aborted)) =
      .ok (some "a", some "ab", some "abc", none) :=
  C2_positional_args [chainA, chainB, chainC] chainGraph ["A", "B", "C"] {} unitDur 0 _
    rfl rfl (runSequence_eq_ok rfl rfl)

/-- C3 counterexample: with the always-failing root `A` (onError = abort) and
its child `B`, `run()` does not reject: the abort rejection is caught and
logged inside `Sequence.build`, so the returned promise resolves. The abort is
only recorded in the result (aborted = "A"), and only level 0 ran (runs =
["A"], the child's level was never entered). -/
theorem C3_counterexample :
    (runSequence {} [abortRoot, abortChild] unitDur 0).map
      (fun q => (q.aborted, q.runs.map (fun nr => nr.id))) = .ok (some "A", ["A"]) := by
  rfl

/-- C3 (amended): a recorded abort names a task that failed with onError =
abort, and no launch beyond its level occurred — but `run()` still resolves
(the abort error is caught inside `Sequence.build`; see the counterexample);
with no abort recorded, every planned node was launched (all levels
executed); every failed run leaves an absent artifact slot, and a descendant
receives `none` in the argument position of each failed parent; concretely
the continue-failure chain resolves with both levels executed and the child
handed one absent slot. -/
theorem C3_abort_stops_continue_proceeds {α : Type} (ts : List (Task α)) (g : Graph α)
    (sorted : List String) (cfg : SequenceConfig) (durOf : String → Nat → Nat)
    (clock : Nat) (r : DriveResult α)
    (hg : buildGraph ts = .ok g) (hs : topologicalSortWithPriority g = .ok sorted)
    (hr : runSequence cfg ts durOf clock = .ok r) :
    (∀ a, r.aborted = some a → ∃ nr ∈ r.runs, nr.id = a ∧
        (∃ e, nr.res.value = Except.error e) ∧ onErrorOf g a = some OnError.abort ∧
        ∀ nr' ∈ r.runs, levelLookup r.levels nr'.id ≤ levelLookup r.levels a) ∧
    (r.aborted = none → ∀ x ∈ sorted, ∃ nr ∈ r.runs, nr.id = x) ∧
    (∀ nr ∈ r.runs, (∃ e, nr.res.value = Except.error e) →
        artLookup r.artifacts nr.id = none) ∧
    (∀ nr ∈ r.runs, ∀ (i : Nat) (hi : i < (depsOf g nr.id).length),
        (∃ pr ∈ r.runs, pr.id = (depsOf g nr.id).get ⟨i, hi⟩ ∧
          ∃ e, pr.res.value = Except.error e) →
        ∃ hi' : i < nr.args.length, nr.args.get ⟨i, hi'⟩ = none) ∧
    (runSequence {} [contFailRoot, contChild] unitDur 0).map
      (fun q => (q.aborted, q.runs.map (fun nr => nr.id), artLookup q.artifacts "A",
                 q.runs.map (fun nr => nr.args))) =
      .ok (none, ["A", "B"], none, [[], [none]]) := by
  obtain ⟨h1, h2, h3, h4, h5⟩ := runSequence_master hg hs hr
  refine ⟨h4, h5, ?_, ?_, rfl⟩
  · rintro nr hnr ⟨e, he⟩
    rw [h2 nr hnr, he]
    rfl
  · rintro nr hnr i hi ⟨pr, hpr, hprid, e, he⟩
    have h6 := h1 nr hnr
    have hlen : nr.args.length = (depsOf g nr.id).length := by
      rw [h6]
      simp
    refine ⟨by omega, ?_⟩
    have hget : nr.args.get ⟨i, by omega⟩ =
        artLookup r.artifacts ((depsOf g nr.id).get ⟨i, hi⟩) := by
      rw [List.get_eq_getElem, List.get_eq_getElem]
      simp only [h6, List.getElem_map]
    rw [hget, ← hprid, h2 pr hpr, he]
    rfl

/-- Witness for C3 at the continue-failure chain (root `A` always fails with
the default onError, child `B` depends on it). -/
theorem C3_abort_stops_continue_proceeds_witness :
    (∀ a, (executeTasksWithConcurrencyLimit contGraph ["A", "B"] 2 unitDur 0).aborted = some a →
        ∃ nr ∈ (executeTasksWithConcurrencyLimit contGraph ["A", "B"] 2 unitDur 0).runs,
          nr.id = a ∧ (∃ e, nr.res.value = Except.error e) ∧
          onErrorOf contGraph a = some OnError.abort ∧
          ∀ nr' ∈ (executeTasksWithConcurrencyLimit contGraph ["A", "B"] 2 unitDur 0).runs,
            levelLookup (executeTasksWithConcurrencyLimit contGraph ["A", "B"] 2 unitDur 0).levels nr'.id ≤
              levelLookup (executeTasksWithConcurrencyLimit contGraph ["A", "B"] 2 unitDur 0).levels a) ∧
    ((executeTasksWithConcurrencyLimit contGraph ["A", "B"] 2 unitDur 0).aborted = none →
      ∀ x ∈ ["A", "B"], ∃ nr ∈ (executeTasksWithConcurrencyLimit contGraph ["A", "B"] 2 unitDur 0).runs,
        nr.id = x) ∧
    (∀ nr ∈ (executeTasksWithConcurrencyLimit contGraph ["A", "B"] 2 unitDur 0).runs,
      (∃ e, nr.res.value = Except.error e) →
      artLookup (executeTasksWithConcurrencyLimit contGraph ["A", "B"] 2 unitDur 0).artifacts nr.id = none) ∧
    (∀ nr ∈ (executeTasksWithConcurrencyLimit contGraph ["A", "B"] 2 unitDur 0).runs,
      ∀ (i : Nat) (hi : i < (depsOf contGraph nr.id).length),
        (∃ pr ∈ (executeTasksWithConcurrencyLimit contGraph ["A", "B"] 2 unitDur 0).runs,
          pr.id = (depsOf contGraph nr.id).get ⟨i, hi⟩ ∧ ∃ e, pr.res.value = Except.error e) →
        ∃ hi' : i < nr.args.length, nr.args.get ⟨i, hi'⟩ = none) ∧
    (runSequence {} [contFailRoot, contChild] unitDur 0).map
      (fun q => (q.aborted, q.runs.map (fun nr => nr.id), artLookup q.artifacts "A",
                 q.runs.map (fun nr => nr.args))) =
      .ok (none, ["A", "B"], none, [[], [none]]) :=
  C3_abort_stops_continue_proceeds [contFailRoot, contChild] contGraph ["A", "B"] {} unitDur 0 _
    rfl rfl (runSequence_eq_ok rfl rfl)

theorem linkDeps_ok {α : Type} (cId : String) :
    ∀ (ds : List String) (acc : Graph α), (∀ d ∈ ds, d ∈ nodeIds acc) →
      ∃ g', linkDeps cId ds acc = .ok g' := by
  intro ds
  induction ds with
  | nil =>
      intro acc _
      exact ⟨acc, rfl⟩
  | cons d ds ih =>
      intro acc h
      have hd : (findNode acc d).isSome :=
        (findNode_isSome_iff acc d).2 (h d (List.mem_cons_self _ _))
      unfold linkDeps
      rw [if_pos hd]
      refine ih _ ?_
      intro d' hd'
      rw [nodeIds_pushDepEdge]
      exact h d' (List.mem_cons_of_mem _ hd')

theorem linkDeps_error {α : Type} (cId : String) :
    ∀ (ds : List String) (acc : Graph α) (e : BuildErr),
      linkDeps cId ds acc = .error e → ∃ d, e = .dependencyNotFound d cId := by
  intro ds
  induction ds with
  | nil =>
      intro acc e h
      simp [linkDeps] at h
  | cons d ds ih =>
      intro acc e h
      unfold linkDeps at h
      split at h
      · exact ih _ e h
      · cases h
        exact ⟨d, rfl⟩

theorem linkDeps_ok_deps {α : Type} (cId : String) :
    ∀ (ds : List String) (acc g' : Graph α), linkDeps cId ds acc = .ok g' →
      ∀ d ∈ ds, d ∈ nodeIds g' := by
  intro ds
  induction ds with
  | nil =>
      intro acc g' _ d hd
      simp at hd
  | cons d ds ih =>
      intro acc g' h d' hd'
      unfold linkDeps at h
      split at h
      · rename_i hfound
        rcases List.mem_cons.1 hd' with h1 | h1
        · subst h1
          have hda : d' ∈ nodeIds acc := (findNode_isSome_iff acc d').1 hfound
          rw [linkDeps_nodeIds _ _ _ _ h, nodeIds_pushDepEdge]
          exact hda
        · exact ih _ _ h d' h1
      · simp at h

theorem addTask_ok {α : Type} (g : Graph α) (t : Task α)
    (h : ∀ d ∈ t.dependencies, d ∈ nodeIds g ∨ d = t.id) :
    ∃ g', addTask g t = .ok g' := by
  unfold addTask
  by_cases hdup : (findNode g t.id).isSome
  · rw [if_pos hdup]
    refine linkDeps_ok t.id t.dependencies g ?_
    intro d hd
    rcases h d hd with h1 | h1
    · exact h1
    · rw [h1]
      exact (findNode_isSome_iff g t.id).1 hdup
  · rw [if_neg hdup]
    refine linkDeps_ok t.id t.dependencies _ ?_
    intro d hd
    rw [nodeIds_append_single]
    rcases h d hd with h1 | h1
    · exact List.mem_append_left _ h1
    · rw [h1]
      refine List.mem_append_right _ ?_
      simp [mkNode]

theorem addTask_ok_deps {α : Type} {g g' : Graph α} {t : Task α}
    (h : addTask g t = .ok g') : ∀ d ∈ t.dependencies, d ∈ nodeIds g' := by
  unfold addTask at h
  exact linkDeps_ok_deps t.id t.dependencies _ g' h

theorem addTask_error {α : Type} {g : Graph α} {t : Task α} {e : BuildErr}
    (h : addTask g t = .error e) : ∃ d, e = .dependencyNotFound d t.id := by
  unfold addTask at h
  exact linkDeps_error t.id t.dependencies _ e h

theorem addTask_nodeIds {α : Type} {g g' : Graph α} {t : Task α}
    (h : addTask g t = .ok g') :
    nodeIds g' = nodeIds g ∨ nodeIds g' = nodeIds g ++ [t.id] := by
  unfold addTask at h
  by_cases hdup : (findNode g t.id).isSome
  · rw [if_pos hdup] at h
    exact Or.inl (linkDeps_nodeIds _ _ _ _ h)
  · rw [if_neg hdup] at h
    right
    rw [linkDeps_nodeIds _ _ _ _ h, nodeIds_append_single]
    rfl

theorem foldl_addTask_ok {α : Type} :
    ∀ (ts : List (Task α)) (g : Graph α),
      (nodeIds g ++ ts.map (fun t => t.id)).Nodup →
      (∀ (i : Nat) (hi : i < ts.length), ∀ d ∈ (ts.get ⟨i, hi⟩).dependencies,
        d ∈ nodeIds g ∨ d ∈ (ts.take i).map (fun t => t.id)) →
      ∃ g', ts.foldlM addTask g = .ok g' ∧
        nodeIds g' = nodeIds g ++ ts.map (fun t => t.id) ∧
        (∀ x, (∀ t ∈ ts, t.id ≠ x) → depsOf g' x = depsOf g x) ∧
        (∀ (i : Nat) (hi : i < ts.length),
          depsOf g' (ts.get ⟨i, hi⟩).id = (ts.get ⟨i, hi⟩).dependencies) := by
  intro ts
  induction ts with
  | nil =>
      intro g _ _
      exact ⟨g, rfl, by simp, fun x _ => rfl, fun i hi => absurd hi (by simp)⟩
  | cons t ts ih =>
      intro g hnd hord
      have hfresh : ¬ t.id ∈ nodeIds g := by
        intro h
        have hmemr : t.id ∈ (t :: ts).map (fun t => t.id) := by simp
        exact (List.nodup_append.1 hnd).2.2 h hmemr
      have hdeps0 : ∀ d ∈ t.dependencies, d ∈ nodeIds g ∨ d = t.id := by
        intro d hd
        have h0 := hord 0 (by simp) d hd
        rcases h0 with h1 | h1
        · exact Or.inl h1
        · simp at h1
      obtain ⟨g₁, hg₁⟩ := addTask_ok g t hdeps0
      have hF := addTask_fresh hfresh hg₁
      have hnd' : (nodeIds g₁ ++ ts.map (fun t => t.id)).Nodup := by
        rw [hF.1, List.append_assoc]
        exact hnd
      have hord' : ∀ (i : Nat) (hi : i < ts.length), ∀ d ∈ (ts.get ⟨i, hi⟩).dependencies,
          d ∈ nodeIds g₁ ∨ d ∈ (ts.take i).map (fun t => t.id) := by
        intro i hi d hd
        have h0 := hord (i + 1) (by simp; omega) d hd
        rw [hF.1]
        rcases h0 with h1 | h1
        · exact Or.inl (List.mem_append_left _ h1)
        · rcases List.mem_cons.1 h1 with h2 | h2
          · refine Or.inl (List.mem_append_right _ ?_)
            rw [h2]
            exact List.mem_singleton.2 rfl
          · exact Or.inr h2
      obtain ⟨g', hg', hids', hother', hdeps'⟩ := ih g₁ hnd' hord'
      have hnotin : ∀ t' ∈ ts, t'.id ≠ t.id := by
        intro t' ht' h
        have hr := (List.nodup_append.1 hnd).2.1
        have hmemr : t.id ∈ ts.map (fun t => t.id) := List.mem_map.2 ⟨t', ht', h⟩
        exact (List.nodup_cons.1 hr).1 hmemr
      refine ⟨g', ?_, ?_, ?_, ?_⟩
      · show (t :: ts).foldlM addTask g = .ok g'
        rw [List.foldlM_cons, hg₁, except_bind_ok_elim]
        exact hg'
      · rw [hids', hF.1, List.append_assoc]
        rfl
      · intro x hx
        have hx1 : t.id ≠ x := hx t (List.mem_cons_self _ _)
        have hx2 : ∀ t' ∈ ts, t'.id ≠ x := fun t' ht' => hx t' (List.mem_cons_of_mem _ ht')
        rw [hother' x hx2]
        exact hF.2.2.1 x (Ne.symm hx1)
      · intro i hi
        cases i with
        | zero =>
            show depsOf g' t.id = t.dependencies
            rw [hother' t.id hnotin]
            exact hF.2.1
        | succ j =>
            exact hdeps' j (by simp at hi; omega)

theorem foldl_addTask_error {α : Type} :
    ∀ (ts : List (Task α)) (g : Graph α) (e : BuildErr),
      ts.foldlM addTask g = .error e → ∃ d c, e = .dependencyNotFound d c := by
  intro ts
  induction ts with
  | nil =>
      intro g e h
      simp [pure, Except.pure] at h
  | cons t ts ih =>
      intro g e h
      rw [List.foldlM_cons] at h
      cases haT : addTask g t with
      | ok g₁ =>
          rw [haT, except_bind_ok_elim] at h
          exact ih g₁ e h
      | error e' =>
          rw [haT, except_bind_error_elim] at h
          have he : e' = e := by
            injection h with h1
          obtain ⟨d, hd⟩ := addTask_error haT
          exact ⟨d, t.id, by rw [← he]; exact hd⟩

theorem foldl_addTask_closed {α : Type} :
    ∀ (ts : List (Task α)) (g₀ g : Graph α), ts.foldlM addTask g₀ = .ok g →
      (∀ x ∈ nodeIds g₀, x ∈ nodeIds g) ∧
      (∀ t ∈ ts, ∀ d ∈ t.dependencies, d ∈ nodeIds g) := by
  intro ts
  induction ts with
  | nil =>
      intro g₀ g h
      have hgg : g₀ = g := by
        simp [pure, Except.pure] at h
        exact h
      subst hgg
      exact ⟨fun x hx => hx, by simp⟩
  | cons t ts ih =>
      intro g₀ g h
      rw [List.foldlM_cons] at h
      cases haT : addTask g₀ t with
      | error e' =>
          rw [haT, except_bind_error_elim] at h
          simp at h
      | ok g₁ =>
          rw [haT, except_bind_ok_elim] at h
          obtain ⟨hmono, hclosed⟩ := ih g₁ g h
          have hmono0 : ∀ x ∈ nodeIds g₀, x ∈ nodeIds g₁ := by
            intro x hx
            rcases addTask_nodeIds haT with h1 | h1 <;> rw [h1]
            · exact hx
            · exact List.mem_append_left _ hx
          refine ⟨fun x hx => hmono x (hmono0 x hx), ?_⟩
          intro t' ht' d hd
          rcases List.mem_cons.1 ht' with h1 | h1
          · subst h1
            exact hmono d (addTask_ok_deps haT d hd)
          · exact hclosed t' h1 d hd

theorem foldl_addTask_ids_sub {α : Type} :
    ∀ (ts : List (Task α)) (g₀ g : Graph α), ts.foldlM addTask g₀ = .ok g →
      ∀ x ∈ nodeIds g, x ∈ nodeIds g₀ ∨ x ∈ ts.map (fun t => t.id) := by
  intro ts
  induction ts with
  | nil =>
      intro g₀ g h x hx
      have hgg : g₀ = g := by
        simp [pure, Except.pure] at h
        exact h
      subst hgg
      exact Or.inl hx
  | cons t ts ih =>
      intro g₀ g h x hx
      rw [List.foldlM_cons] at h
      cases haT : addTask g₀ t with
      | error e' =>
          rw [haT, except_bind_error_elim] at h
          simp at h
      | ok g₁ =>
          rw [haT, except_bind_ok_elim] at h
          rcases ih g₁ g h x hx with h1 | h1
          · rcases addTask_nodeIds haT with h2 | h2 <;> rw [h2] at h1
            · exact Or.inl h1
            · rcases List.mem_append.1 h1 with h3 | h3
              · exact Or.inl h3
              · right
                simp at h3
                simp [h3]
          · right
            simp only [List.map_cons]
            exact List.mem_cons_of_mem _ h1

theorem topo_ok_of_prefix_closed {α : Type} {g : Graph α} (hwf : WF g)
    (hord : ∀ (i : Nat) (hi : i < g.length), ∀ d ∈ depsOf g ((g.get ⟨i, hi⟩).id),
      d ∈ nodeIds (g.take i)) :
    ∃ sorted, topologicalSortWithPriority g = .ok sorted := by
  have hinv := kahnLoop_inv hwf g.length (kahnInit g) (kahnInit_inv hwf)
  have hqe := kahnLoop_queue_empty hwf g.length (kahnInit g) (kahnInit_inv hwf) (by
    rw [show (kahnInit g).out = [] from rfl]
    simp [nodeIds])
  have hcover : ∀ (i : Nat), ∀ (hi : i < g.length),
      (g.get ⟨i, hi⟩).id ∈ (kahnLoop g g.length (kahnInit g)).out := by
    intro i
    induction i using Nat.strong_induction_on with
    | _ i IH =>
        intro hi
        have hdeps : ∀ d ∈ depsOf g ((g.get ⟨i, hi⟩).id),
            d ∈ (kahnLoop g g.length (kahnInit g)).out := by
          intro d hd
          have hdtake := hord i hi d hd
          obtain ⟨n, hn, hnid⟩ := List.mem_map.1 hdtake
          obtain ⟨j, hj, hjn⟩ := List.mem_iff_getElem.1 hn
          have hjlt : j < i := by
            simp [List.length_take] at hj
            omega
          have hjg : j < g.length := by omega
          have hid2 : n.id = (g.get ⟨j, hjg⟩).id := by
            rw [← hjn]
            rw [List.get_eq_getElem]
            rw [List.getElem_take _]
          rw [← hnid, hid2]
          exact IH j hjlt hjg
        have hmem : (g.get ⟨i, hi⟩).id ∈ nodeIds g :=
          List.mem_map_of_mem _ (List.get_mem g i hi)
        rcases hinv.complete _ hmem hdeps with h1 | h1
        · exact h1
        · rw [hqe] at h1
          simp at h1
  have hsub : ∀ x ∈ nodeIds g, x ∈ (kahnLoop g g.length (kahnInit g)).out := by
    intro x hx
    obtain ⟨n, hn, hnid⟩ := List.mem_map.1 hx
    obtain ⟨j, hj, hjn⟩ := List.mem_iff_getElem.1 hn
    have hid2 : (g.get ⟨j, hj⟩).id = x := by
      rw [List.get_eq_getElem, hjn, hnid]
    rw [← hid2]
    exact hcover j hj
  have hnodupout : (kahnLoop g g.length (kahnInit g)).out.Nodup :=
    (List.nodup_append.1 hinv.nodupOQ).1
  have hfin : (kahnLoop g g.length (kahnInit g)).out.toFinset = (nodeIds g).toFinset := by
    refine Finset.Subset.antisymm ?_ ?_ <;> intro a ha <;> rw [List.mem_toFinset] at ha ⊢
    · exact hinv.outIds a ha
    · exact hsub a ha
  have hlen : (kahnLoop g g.length (kahnInit g)).out.length = g.length := by
    have h1 := congrArg Finset.card hfin
    rw [List.toFinset_card_of_nodup hnodupout, List.toFinset_card_of_nodup hwf.nodup] at h1
    simpa [nodeIds] using h1
  refine ⟨(kahnLoop g g.length (kahnInit g)).out, ?_⟩
  unfold topologicalSortWithPriority
  rw [if_pos hlen]

/-- C5 (amended): `addTask` resolves `parents` only against previously added
descriptors, so build success is order-sensitive: for a list with
pairwise-distinct ids in which every `parents` entry names the id of an
EARLIER descriptor, the build succeeds, the planner succeeds, and `run()`
resolves; a `parents` entry naming an id that appears in no descriptor at
all makes the build fail with a `Dependency ... not found` error (the
source has no `UnknownDependency` name); and any build error is returned
before the execution phase starts, so no action ever runs
(`runSequence` rejects with exactly the build error). -/
theorem C5_order_sensitive_build {α : Type} (ts : List (Task α)) (cfg : SequenceConfig)
    (durOf : String → Nat → Nat) (clock : Nat) :
    ((ts.map (fun t => t.id)).Nodup →
      (∀ (i : Nat) (hi : i < ts.length), ∀ d ∈ (ts.get ⟨i, hi⟩).dependencies,
        d ∈ (ts.take i).map (fun t => t.id)) →
      ∃ g sorted r, buildGraph ts = .ok g ∧ topologicalSortWithPriority g = .ok sorted ∧
        runSequence cfg ts durOf clock = .ok r) ∧
    ((∃ t ∈ ts, ∃ d ∈ t.dependencies, ¬ d ∈ ts.map (fun t => t.id)) →
      ∃ d c, buildGraph ts = .error (.dependencyNotFound d c)) ∧
    (∀ e, buildGraph ts = .error e → runSequence cfg ts durOf clock = .error e) := by
  refine ⟨?_, ?_, ?_⟩
  · intro hnd hord
    have hnd' : (nodeIds ([] : Graph α) ++ ts.map (fun t => t.id)).Nodup := hnd
    have hord' : ∀ (i : Nat) (hi : i < ts.length), ∀ d ∈ (ts.get ⟨i, hi⟩).dependencies,
        d ∈ nodeIds ([] : Graph α) ∨ d ∈ (ts.take i).map (fun t => t.id) :=
      fun i hi d hd => Or.inr (hord i hi d hd)
    obtain ⟨g, hg, hids, hother, hdeps⟩ := foldl_addTask_ok ts [] hnd' hord'
    have hgb : buildGraph ts = .ok g := hg
    have hwf := buildGraph_wf hgb
    have hids2 : nodeIds g = ts.map (fun t => t.id) := by
      rw [hids]
      rfl
    have hglen : g.length = ts.length := by
      have h1 := congrArg List.length hids2
      simpa [nodeIds] using h1
    have hordg : ∀ (i : Nat) (hi : i < g.length), ∀ d ∈ depsOf g ((g.get ⟨i, hi⟩).id),
        d ∈ nodeIds (g.take i) := by
      intro i hi d hd
      have hit : i < ts.length := by omega
      have hlen1 : i < (nodeIds g).length := by simpa [nodeIds] using hi
      have hlen2 : i < (ts.map (fun t => t.id)).length := by simpa using hit
      have hgid : (g.get ⟨i, hi⟩).id = (ts.get ⟨i, hit⟩).id := by
        have h1 : (nodeIds g).get ⟨i, hlen1⟩ = (ts.map (fun t => t.id)).get ⟨i, hlen2⟩ := by
          rw [List.get_eq_getElem, List.get_eq_getElem]
          exact List.getElem_of_eq hids2 _
        have h2 : (nodeIds g).get ⟨i, hlen1⟩ = (g.get ⟨i, hi⟩).id := by
          rw [List.get_eq_getElem]
          exact List.getElem_map _
        have h3 : (ts.map (fun t => t.id)).get ⟨i, hlen2⟩ = (ts.get ⟨i, hit⟩).id := by
          rw [List.get_eq_getElem]
          exact List.getElem_map _
        rw [← h2, h1, h3]
      rw [hgid] at hd
      rw [hdeps i hit] at hd
      have hdt := hord i hit d hd
      have hkey : nodeIds (g.take i) = (ts.take i).map (fun t => t.id) := by
        show (g.take i).map (fun n => n.id) = (ts.take i).map (fun t => t.id)
        rw [List.map_take, List.map_take]
        show (nodeIds g).take i = _
        rw [hids2]
      rw [hkey]
      exact hdt
    obtain ⟨sorted, hsorted⟩ := topo_ok_of_prefix_closed hwf hordg
    exact ⟨g, sorted, _, hgb, hsorted, runSequence_eq_ok hgb hsorted⟩
  · rintro ⟨t, ht, d, hd, hdnot⟩
    cases hb : buildGraph ts with
    | ok g =>
        have hcl := (foldl_addTask_closed ts [] g hb).2 t ht d hd
        rcases foldl_addTask_ids_sub ts [] g hb d hcl with h1 | h1
        · simp [nodeIds] at h1
        · exact absurd h1 hdnot
    | error e =>
        obtain ⟨d', c', he⟩ := foldl_addTask_error ts [] e hb
        exact ⟨d', c', by rw [he]⟩
  · intro e he
    unfold runSequence
    rw [he, except_bind_error_elim]

/-- Witness for C5 at the correctly ordered three-task chain. -/
theorem C5_order_sensitive_build_witness :
    ∃ g sorted r, buildGraph [chainA, chainB, chainC] = .ok g ∧
      topologicalSortWithPriority g = .ok sorted ∧
      runSequence {} [chainA, chainB, chainC] unitDur 0 = .ok r :=
  (C5_order_sensitive_build [chainA, chainB, chainC] {} unitDur 0).1 (by decide) (by decide)

end Fusync
